import Mathlib

/-!
Verification of the knapsack-generator core (app.js, batch-app.js,
budget-finder-app.js, dual-app.js) against its specification.

Modelling conventions for the shallow embedding:
  - JavaScript numbers are modelled as exact rationals.  All arithmetic the
    verified code paths perform on in-range integers and short decimal
    fractions is exact in IEEE doubles, so the rational model is faithful
    there; transcendental sampling (Box-Muller) is not embedded and is
    instead abstracted as a draw stream parameter.
  - Int32Array writes perform the JavaScript ToInt32 conversion: truncation
    toward zero followed by a wrap into the signed 32-bit range.  This is
    modelled exactly (truncQ, wrap32, toInt32 below).
  - Item weights handed to the DP solver are natural numbers: the solver
    indexes its table with c - w, and every verified call site uses integer
    weights (the spec leaves fractional-weight solving as an open gap).
  - The item synthesizer and Sahni-k metric never index arrays by weight,
    so they are embedded over fully rational items (ItemQ).
-/

namespace KnapsackGen

/-- Math.round: round half toward positive infinity. -/
def jsRound (q : ℚ) : ℤ := ⌊q + 1/2⌋

/-- Number.prototype.toFixed(2) followed by parseFloat: round to two decimal
places, ties toward the larger value. -/
def toFixed2 (q : ℚ) : ℚ := ((⌊q * 100 + 1/2⌋ : ℤ) : ℚ) / 100

/-- Truncation toward zero, the first half of the ToInt32 conversion. -/
def truncQ (q : ℚ) : ℤ := if q < 0 then -⌊-q⌋ else ⌊q⌋

/-- Wrap an integer into the signed 32-bit range, the second half of ToInt32. -/
def wrap32 (z : ℤ) : ℤ := (z + 2 ^ 31) % 2 ^ 32 - 2 ^ 31

/-- The JavaScript ToInt32 conversion applied on every Int32Array write. -/
def toInt32 (q : ℚ) : ℤ := wrap32 (truncQ q)

/-- An item as produced for the DP solver: integer weight, rational value. -/
structure Item where
  id : ℕ
  weight : ℕ
  value : ℚ
deriving DecidableEq

instance : Inhabited Item := ⟨⟨0, 0, 0⟩⟩

/-- Total weight of a list of items. -/
def weightSumN (l : List Item) : ℕ := (l.map Item.weight).sum

/-- Total value of a list of items. -/
def valueSum (l : List Item) : ℚ := (l.map Item.value).sum

/-- A fully rational item, for the synthesizer and the Sahni-k metric. -/
structure ItemQ where
  id : ℕ
  weight : ℚ
  value : ℚ
deriving DecidableEq

instance : Inhabited ItemQ := ⟨⟨0, 0, 0⟩⟩

/-- View a solver item as a rational item (computeSahniK receives the same
item objects the solver works on). -/
def Item.toQ (it : Item) : ItemQ := ⟨it.id, (it.weight : ℚ), it.value⟩

/-!
The DP table of solveKnapsack.  dp items i c is the table entry dp[i][c]:
best value using the first i items within capacity c, as stored in the
Int32Array rows.  The row write dp[i][c] = dp[i-1][c] re-stores an already
in-range entry, so it is the identity; the conditional improvement write
goes through the ToInt32 conversion.
-/

/-- Table entry dp[i][c] of solveKnapsack (app.js, batch-app.js, dual-app.js;
the three copies are identical). -/
def dp (items : List Item) : ℕ → ℕ → ℤ
  | 0, _ => 0
  | i + 1, c =>
    let it := items.getD i ⟨0, 0, 0⟩
    if it.weight ≤ c ∧ ((dp items i (c - it.weight) : ℚ) + it.value > ((dp items i c : ℤ) : ℚ)) then
      toInt32 ((dp items i (c - it.weight) : ℚ) + it.value)
    else dp items i c

/-- The backtracking phase of solveKnapsack: walk rows n..1, select item i
whenever the table value changed, and return the selection in original
order. -/
def backtrack (items : List Item) : ℕ → ℕ → List Item
  | 0, _ => []
  | i + 1, c =>
    let it := items.getD i ⟨0, 0, 0⟩
    if dp items (i + 1) c ≠ dp items i c then
      backtrack items i (c - it.weight) ++ [it]
    else
      backtrack items i c

/-- The solution record solveKnapsack returns. -/
structure Solution where
  value : ℚ
  weight : ℕ
  count : ℕ
  items : List Item
deriving DecidableEq

/-- solveKnapsack: DP over an (n+1) x (capacity+1) Int32Array table plus
backtracking; value is the stored dp[n][capacity], weight is the sum of the
selected weights, count their number. -/
def solveKnapsack (items : List Item) (capacity : ℕ) : Solution :=
  let selected := backtrack items items.length capacity
  ⟨((dp items items.length capacity : ℤ) : ℚ), weightSumN selected, selected.length, selected⟩

/-!
Pure natural-number reference DP, used to analyse dp away from the Int32
conversion.  dpN works on (weight, value) pairs.
-/

/-- Weight of a list of (weight, value) pairs. -/
def wsumP (l : List (ℕ × ℕ)) : ℕ := (l.map Prod.fst).sum

/-- Value of a list of (weight, value) pairs. -/
def vsumP (l : List (ℕ × ℕ)) : ℕ := (l.map Prod.snd).sum

/-- Pure prefix-indexed DP over natural numbers (no 32-bit conversion). -/
def dpN (l : List (ℕ × ℕ)) : ℕ → ℕ → ℕ
  | 0, _ => 0
  | i + 1, c =>
    let p := l.getD i (0, 0)
    if p.1 ≤ c ∧ dpN l i (c - p.1) + p.2 > dpN l i c then dpN l i (c - p.1) + p.2
    else dpN l i c

/-- Head-recursive form of the pure DP, convenient for induction. -/
def dpRevN : List (ℕ × ℕ) → ℕ → ℕ
  | [], _ => 0
  | p :: rest, c =>
    if p.1 ≤ c ∧ dpRevN rest (c - p.1) + p.2 > dpRevN rest c then dpRevN rest (c - p.1) + p.2
    else dpRevN rest c

/-- The (weight, value) pair view of solver items; values are assumed
integral by the hypotheses of the theorems that use this. -/
def itemsNP (items : List Item) : List (ℕ × ℕ) :=
  items.map fun it => (it.weight, it.value.num.toNat)

/-- Positive integral rationals are the casts of their numerator. -/
lemma value_natCast {v : ℚ} (h1 : v.den = 1) (h2 : 1 ≤ v) :
    ((v.num.toNat : ℕ) : ℚ) = v ∧ 1 ≤ v.num.toNat := by
  have hnum : (v.num : ℚ) = v := (Rat.den_eq_one_iff v).mp h1
  have hpos : 0 < v.num := Rat.num_pos.mpr (lt_of_lt_of_le one_pos h2)
  have htn : ((v.num.toNat : ℤ) : ℚ) = v := by
    rw [Int.toNat_of_nonneg (le_of_lt hpos)]; exact hnum
  constructor
  · exact_mod_cast htn
  · have : (1 : ℤ) ≤ v.num := hpos
    omega

/-- ToInt32 is the identity on natural numbers below 2^31. -/
lemma toInt32_coe_nat (m : ℕ) (h : (m : ℤ) < 2 ^ 31) : toInt32 ((m : ℕ) : ℚ) = (m : ℤ) := by
  have h0 : ¬ ((m : ℚ) < 0) := not_lt.mpr (by positivity)
  have htr : truncQ ((m : ℕ) : ℚ) = (m : ℤ) := by
    simp [truncQ, h0, Int.floor_natCast]
  rw [toInt32, htr, wrap32]
  have h1 : (0 : ℤ) ≤ (m : ℤ) + 2 ^ 31 := by positivity
  have h2 : (m : ℤ) + 2 ^ 31 < 2 ^ 32 := by omega
  rw [Int.emod_eq_of_lt h1 h2]; ring

/-- The pair view reads back the (weight, numerator) of the item at each
index, the default item mapping to the default pair. -/
lemma itemsNP_getD (items : List Item) (i : ℕ) :
    (itemsNP items).getD i (0, 0) =
      ((items.getD i ⟨0, 0, 0⟩).weight, (items.getD i ⟨0, 0, 0⟩).value.num.toNat) := by
  rw [itemsNP, List.getD_eq_getElem?_getD, List.getElem?_map, List.getD_eq_getElem?_getD]
  cases h : items[i]? with
  | none => rfl
  | some a => rfl

/-- Items read at an in-range index belong to the list. -/
lemma getD_mem {items : List Item} {i : ℕ} (h : i < items.length) :
    items.getD i ⟨0, 0, 0⟩ ∈ items := by
  rw [List.getD_eq_getElem items _ h]; exact List.getElem_mem h

/-- vsumP over a take never exceeds vsumP over the list. -/
lemma vsumP_take_le (l : List (ℕ × ℕ)) (i : ℕ) : vsumP (l.take i) ≤ vsumP l := by
  conv_rhs => rw [← List.take_append_drop i l]
  rw [vsumP, vsumP, List.map_append, List.sum_append]
  exact Nat.le_add_right _ _

/-- vsumP is monotone in the length of the taken prefix. -/
lemma vsumP_take_succ_ge (l : List (ℕ × ℕ)) (i : ℕ) :
    vsumP (l.take i) ≤ vsumP (l.take (i + 1)) := by
  rw [List.take_succ, vsumP, vsumP, List.map_append, List.sum_append]
  exact Nat.le_add_right _ _

/-- Taking one more element adds the element value to vsumP. -/
lemma vsumP_take_succ_eq (l : List (ℕ × ℕ)) (i : ℕ) (h : i < l.length) :
    vsumP (l.take (i + 1)) = vsumP (l.take i) + (l.getD i (0, 0)).2 := by
  rw [List.take_succ, vsumP, vsumP, List.map_append, List.sum_append]
  congr 1
  rw [List.getElem?_eq_getElem h, List.getD_eq_getElem l _ h]
  simp

/-- The pure DP value is bounded by the value of the prefix it works on. -/
lemma dpN_le_vsum (l : List (ℕ × ℕ)) : ∀ i c, dpN l i c ≤ vsumP (l.take i) := by
  intro i
  induction i with
  | zero => intro c; simp [dpN]
  | succ i ih =>
    intro c
    rw [dpN]
    split
    · next hcond =>
      by_cases hlen : i < l.length
      · rw [vsumP_take_succ_eq l i hlen]
        exact Nat.add_le_add (ih _) (le_refl _)
      · rw [List.getD_eq_default _ _ (le_of_not_lt hlen)] at hcond
        simp at hcond
    · exact le_trans (ih c) (vsumP_take_succ_ge l i)

/-- The pair view preserves total value when values are positive integers. -/
lemma vsumP_itemsNP (items : List Item)
    (hv : ∀ it ∈ items, it.value.den = 1 ∧ 1 ≤ it.value) :
    ((vsumP (itemsNP items) : ℕ) : ℚ) = valueSum items := by
  induction items with
  | nil => simp [vsumP, itemsNP, valueSum]
  | cons a l ih =>
    have ha := hv a (List.mem_cons_self a l)
    have haq := (value_natCast ha.1 ha.2).1
    have ihl := ih fun it hit => hv it (List.mem_cons_of_mem a hit)
    rw [itemsNP, List.map_cons, vsumP, List.map_cons, List.sum_cons, valueSum, List.map_cons,
      List.sum_cons]
    rw [Nat.cast_add, haq]
    rw [vsumP, itemsNP] at ihl
    rw [ihl, valueSum]

/-- Rows beyond the item count copy the previous row (pure DP). -/
lemma dpN_stable (l : List (ℕ × ℕ)) (i c : ℕ) (h : l.length ≤ i) :
    dpN l (i + 1) c = dpN l i c := by
  rw [dpN, List.getD_eq_default _ _ h]
  simp

/-- Rows beyond the item count copy the previous row (Int32 DP). -/
lemma dp_stable (items : List Item) (i c : ℕ) (h : items.length ≤ i) :
    dp items (i + 1) c = dp items i c := by
  rw [dp, List.getD_eq_default _ _ h]
  simp

/-- Bridge: with strictly positive integral values of total below 2^31, the
Int32Array table of solveKnapsack coincides with the pure DP. -/
lemma dp_eq_dpN (items : List Item)
    (hv : ∀ it ∈ items, it.value.den = 1 ∧ 1 ≤ it.value)
    (hb : valueSum items < 2 ^ 31) :
    ∀ i c, dp items i c = ((dpN (itemsNP items) i c : ℕ) : ℤ) := by
  have hbN : vsumP (itemsNP items) < 2 ^ 31 := by
    have := vsumP_itemsNP items hv
    have h2 : ((vsumP (itemsNP items) : ℕ) : ℚ) < ((2 ^ 31 : ℕ) : ℚ) := by
      rw [this]; exact_mod_cast hb
    exact_mod_cast h2
  intro i
  induction i with
  | zero => intro c; simp [dp, dpN]
  | succ i ih =>
    intro c
    rw [dp, dpN, itemsNP_getD]
    dsimp only
    by_cases hlen : i < items.length
    · have hmem := getD_mem hlen
      have hval := (value_natCast (hv _ hmem).1 (hv _ hmem).2).1
      by_cases hQ : (items.getD i ⟨0, 0, 0⟩).weight ≤ c ∧
          dpN (itemsNP items) i (c - (items.getD i ⟨0, 0, 0⟩).weight) +
            (items.getD i ⟨0, 0, 0⟩).value.num.toNat > dpN (itemsNP items) i c
      · have hQ1 : (items.getD i ⟨0, 0, 0⟩).weight ≤ c ∧
            ((dp items i (c - (items.getD i ⟨0, 0, 0⟩).weight) : ℤ) : ℚ) +
              (items.getD i ⟨0, 0, 0⟩).value >
              ((dp items i c : ℤ) : ℚ) := by
          refine ⟨hQ.1, ?_⟩
          rw [ih, ih, ← hval]
          have := hQ.2
          push_cast
          exact_mod_cast this
        rw [if_pos hQ1, if_pos hQ, ih]
        have hb1 : dpN (itemsNP items) i (c - (items.getD i ⟨0, 0, 0⟩).weight) +
            (items.getD i ⟨0, 0, 0⟩).value.num.toNat ≤ vsumP (itemsNP items) := by
          have h1 := dpN_le_vsum (itemsNP items) i (c - (items.getD i ⟨0, 0, 0⟩).weight)
          have h2 : vsumP ((itemsNP items).take (i + 1)) =
              vsumP ((itemsNP items).take i) + ((itemsNP items).getD i (0, 0)).2 := by
            refine vsumP_take_succ_eq _ i ?_
            rw [itemsNP, List.length_map]; exact hlen
          rw [itemsNP_getD] at h2
          dsimp only at h2
          have h3 := vsumP_take_le (itemsNP items) (i + 1)
          omega
        have hsum : (((dpN (itemsNP items) i (c - (items.getD i ⟨0, 0, 0⟩).weight) : ℕ) : ℤ) : ℚ) +
            (items.getD i ⟨0, 0, 0⟩).value =
            (((dpN (itemsNP items) i (c - (items.getD i ⟨0, 0, 0⟩).weight) +
              (items.getD i ⟨0, 0, 0⟩).value.num.toNat : ℕ)) : ℚ) := by
          push_cast
          rw [hval]
        rw [hsum]
        refine toInt32_coe_nat _ ?_
        have hlt : dpN (itemsNP items) i (c - (items.getD i ⟨0, 0, 0⟩).weight) +
            (items.getD i ⟨0, 0, 0⟩).value.num.toNat < 2 ^ 31 := lt_of_le_of_lt hb1 hbN
        exact_mod_cast hlt
      · have hQ1 : ¬ ((items.getD i ⟨0, 0, 0⟩).weight ≤ c ∧
            ((dp items i (c - (items.getD i ⟨0, 0, 0⟩).weight) : ℤ) : ℚ) +
              (items.getD i ⟨0, 0, 0⟩).value >
              ((dp items i c : ℤ) : ℚ)) := by
          intro hx
          refine hQ ⟨hx.1, ?_⟩
          have := hx.2
          rw [ih, ih, ← hval] at this
          push_cast at this
          exact_mod_cast this
        rw [if_neg hQ1, if_neg hQ, ih]
    · have hd : items.getD i ⟨0, 0, 0⟩ = ⟨0, 0, 0⟩ :=
        List.getD_eq_default _ _ (le_of_not_lt hlen)
      rw [hd]
      simp [ih]

/-- Sum of weights of a cons (pairs). -/
lemma wsumP_cons (p : ℕ × ℕ) (l : List (ℕ × ℕ)) : wsumP (p :: l) = p.1 + wsumP l := by
  simp [wsumP]

/-- Sum of values of a cons (pairs). -/
lemma vsumP_cons (p : ℕ × ℕ) (l : List (ℕ × ℕ)) : vsumP (p :: l) = p.2 + vsumP l := by
  simp [vsumP]

/-- The prefix-indexed pure DP equals the head-recursive DP on the reversed
prefix. -/
lemma dpN_take_rev (l : List (ℕ × ℕ)) : ∀ i, i ≤ l.length → ∀ c,
    dpN l i c = dpRevN ((l.take i).reverse) c := by
  intro i
  induction i with
  | zero => intro _ c; simp [dpN, dpRevN]
  | succ i ih =>
    intro hle c
    have hlen : i < l.length := lt_of_lt_of_le (Nat.lt_succ_self i) hle
    have htake : (l.take (i + 1)).reverse = l.getD i (0, 0) :: (l.take i).reverse := by
      rw [List.take_succ, List.getElem?_eq_getElem hlen, List.getD_eq_getElem l _ hlen]
      simp
    rw [htake, dpN, dpRevN, ← ih (le_of_lt hlen), ← ih (le_of_lt hlen)]

/-- Adding an item in front never lowers the head-recursive DP value. -/
lemma dpRevN_mono_cons (p : ℕ × ℕ) (rest : List (ℕ × ℕ)) (c : ℕ) :
    dpRevN rest c ≤ dpRevN (p :: rest) c := by
  rw [dpRevN]
  split
  · next h => omega
  · exact le_refl _

/-- Taking the front item (when it fits) never beats the DP value. -/
lemma dpRevN_take_le (p : ℕ × ℕ) (rest : List (ℕ × ℕ)) (c : ℕ) (h : p.1 ≤ c) :
    dpRevN rest (c - p.1) + p.2 ≤ dpRevN (p :: rest) c := by
  rw [dpRevN]
  split
  · exact le_refl _
  · next hneg =>
    have := not_and.mp hneg h
    omega

/-- Completeness of the head-recursive DP: no feasible subset beats it. -/
lemma dpRevN_complete (l : List (ℕ × ℕ)) : ∀ s, s.Sublist l → ∀ c,
    wsumP s ≤ c → vsumP s ≤ dpRevN l c := by
  induction l with
  | nil =>
    intro s hs c _
    rw [List.sublist_nil.mp hs]
    simp [vsumP, dpRevN]
  | cons p rest ih =>
    intro s hs c hc
    rcases List.sublist_cons_iff.mp hs with h | ⟨r, rfl, hr⟩
    · exact le_trans (ih s h c hc) (dpRevN_mono_cons p rest c)
    · rw [wsumP_cons] at hc
      rw [vsumP_cons]
      have hp : p.1 ≤ c := le_trans (Nat.le_add_right _ _) hc
      have hrc : wsumP r ≤ c - p.1 := by omega
      have := ih r hr (c - p.1) hrc
      have hb := dpRevN_take_le p rest c hp
      omega

/-- When the table entry changes from one row to the next, the pure DP took
the new item: it fits and its improvement condition holds. -/
lemma dpN_succ_ne (l : List (ℕ × ℕ)) (i c : ℕ) (h : dpN l (i + 1) c ≠ dpN l i c) :
    (l.getD i (0, 0)).1 ≤ c ∧
    dpN l i (c - (l.getD i (0, 0)).1) + (l.getD i (0, 0)).2 > dpN l i c ∧
    dpN l (i + 1) c = dpN l i (c - (l.getD i (0, 0)).1) + (l.getD i (0, 0)).2 := by
  rw [dpN] at h ⊢
  by_cases hQ : (l.getD i (0, 0)).1 ≤ c ∧
      dpN l i (c - (l.getD i (0, 0)).1) + (l.getD i (0, 0)).2 > dpN l i c
  · rw [if_pos hQ]
    exact ⟨hQ.1, hQ.2, rfl⟩
  · rw [if_neg hQ] at h
    exact absurd rfl h

/-- The backtracking selection is a sublist of the prefix it scans. -/
lemma backtrack_sublist (items : List Item) : ∀ i c,
    (backtrack items i c).Sublist (items.take i) := by
  intro i
  induction i with
  | zero => intro c; rw [backtrack]; simp
  | succ i ih =>
    intro c
    rw [backtrack]
    split
    · next hne =>
      by_cases hlen : i < items.length
      · have htake : items.take (i + 1) = items.take i ++ [items.getD i ⟨0, 0, 0⟩] := by
          rw [List.take_succ, List.getElem?_eq_getElem hlen, List.getD_eq_getElem items _ hlen]
          simp
        rw [htake]
        exact List.Sublist.append (ih _) (List.Sublist.refl _)
      · exact absurd (dp_stable items i c (le_of_not_lt hlen)) hne
    · refine List.Sublist.trans (ih c) ?_
      rw [List.take_succ]
      exact List.sublist_append_left _ _

/-- Weight bound and exact value of the backtracking selection (under the
integrality and range hypotheses that make the table exact). -/
lemma backtrack_spec (items : List Item)
    (hv : ∀ it ∈ items, it.value.den = 1 ∧ 1 ≤ it.value)
    (hb : valueSum items < 2 ^ 31) : ∀ i c,
    weightSumN (backtrack items i c) ≤ c ∧
    valueSum (backtrack items i c) = ((dpN (itemsNP items) i c : ℕ) : ℚ) := by
  have heq := dp_eq_dpN items hv hb
  intro i
  induction i with
  | zero =>
    intro c
    rw [backtrack]
    simp [weightSumN, valueSum, dpN]
  | succ i ih =>
    intro c
    rw [backtrack]
    split
    · next hne =>
      have hneN : dpN (itemsNP items) (i + 1) c ≠ dpN (itemsNP items) i c := by
        intro hx
        exact hne (by rw [heq, heq, hx])
      obtain ⟨hw1, hgt, hstep⟩ := dpN_succ_ne (itemsNP items) i c hneN
      rw [itemsNP_getD] at hw1 hgt hstep
      dsimp only at hw1 hgt hstep
      have hlen : i < items.length := by
        by_contra hcon
        exact hneN (dpN_stable (itemsNP items) i c
          (by rw [itemsNP, List.length_map]; exact le_of_not_lt hcon))
      have hval := (value_natCast (hv _ (getD_mem hlen)).1 (hv _ (getD_mem hlen)).2).1
      obtain ⟨ihw, ihv⟩ := ih (c - (items.getD i ⟨0, 0, 0⟩).weight)
      constructor
      · rw [weightSumN, List.map_append, List.sum_append]
        rw [weightSumN] at ihw
        simp only [List.map_cons, List.map_nil, List.sum_cons, List.sum_nil]
        omega
      · rw [valueSum, List.map_append, List.sum_append]
        rw [valueSum] at ihv
        simp only [List.map_cons, List.map_nil, List.sum_cons, List.sum_nil]
        rw [ihv, hstep]
        push_cast
        rw [hval]
        ring
    · next hne =>
      have heqN : dpN (itemsNP items) (i + 1) c = dpN (itemsNP items) i c := by
        have hx : dp items (i + 1) c = dp items i c := not_ne_iff.mp hne
        rw [heq, heq] at hx
        exact_mod_cast hx
      rw [heqN]
      exact ih c

/-- wsumP is invariant under reversal. -/
lemma wsumP_reverse (l : List (ℕ × ℕ)) : wsumP l.reverse = wsumP l := by
  rw [wsumP, wsumP, List.map_reverse, List.sum_reverse]

/-- vsumP is invariant under reversal. -/
lemma vsumP_reverse (l : List (ℕ × ℕ)) : vsumP l.reverse = vsumP l := by
  rw [vsumP, vsumP, List.map_reverse, List.sum_reverse]

/-- The pair view preserves total weight. -/
lemma wsumP_itemsNP (s : List Item) : wsumP (itemsNP s) = weightSumN s := by
  rw [wsumP, itemsNP, List.map_map, weightSumN]
  rfl

/-- The reported solution value is the pure DP optimum under the
integrality and range hypotheses. -/
lemma solve_value_eq (items : List Item)
    (hv : ∀ it ∈ items, it.value.den = 1 ∧ 1 ≤ it.value)
    (hb : valueSum items < 2 ^ 31) (c : ℕ) :
    (solveKnapsack items c).value = ((dpN (itemsNP items) items.length c : ℕ) : ℚ) := by
  rw [solveKnapsack]
  dsimp only
  rw [dp_eq_dpN items hv hb]
  push_cast
  ring

/-- No feasible subset beats the reported solution value. -/
lemma solve_complete (items : List Item)
    (hv : ∀ it ∈ items, it.value.den = 1 ∧ 1 ≤ it.value)
    (hb : valueSum items < 2 ^ 31) (c : ℕ) :
    ∀ s : List Item, s.Sublist items → weightSumN s ≤ c →
      valueSum s ≤ (solveKnapsack items c).value := by
  intro s hs hwt
  have hlen : items.length = (itemsNP items).length := by
    rw [itemsNP, List.length_map]
  have hrev : dpN (itemsNP items) items.length c = dpRevN ((itemsNP items).reverse) c := by
    rw [hlen, dpN_take_rev (itemsNP items) (itemsNP items).length (le_refl _) c,
      List.take_length]
  have hsub : (itemsNP s).reverse.Sublist ((itemsNP items).reverse) :=
    List.Sublist.reverse (List.Sublist.map _ hs)
  have hwt2 : wsumP ((itemsNP s).reverse) ≤ c := by
    rw [wsumP_reverse, wsumP_itemsNP]; exact hwt
  have hle := dpRevN_complete ((itemsNP items).reverse) _ hsub c hwt2
  rw [vsumP_reverse] at hle
  have hcast : ((vsumP (itemsNP s) : ℕ) : ℚ) = valueSum s :=
    vsumP_itemsNP s fun it hit => hv it (hs.subset hit)
  rw [solve_value_eq items hv hb c, ← hcast, hrev]
  exact_mod_cast hle

/-- C1 and C7 share this concrete witness input. -/
def witnessItems : List Item := [⟨1, 1, 2⟩, ⟨2, 1, 3⟩]

/-- The single item whose value 2^31 overflows the Int32Array table. -/
def bigItem : Item := ⟨1, 1, (2147483648 : ℚ)⟩

/-- C1 (amended): for positive integer weights and values whose total value
is below 2^31 (so that no Int32Array write wraps) and integer capacity
C ≥ 1, solveKnapsack returns a solution of total weight at most C whose
value is exactly the maximum value over all subsets of total weight at most
C: the value is attained by the feasible selected subset and no feasible
subset exceeds it. -/
theorem solveKnapsack_optimal (items : List Item) (C : ℕ)
    (_hw : ∀ it ∈ items, 1 ≤ it.weight)
    (hv : ∀ it ∈ items, it.value.den = 1 ∧ 1 ≤ it.value)
    (hb : valueSum items < 2 ^ 31)
    (_hC : 1 ≤ C) :
    (solveKnapsack items C).weight ≤ C ∧
    ((solveKnapsack items C).items.Sublist items ∧
      weightSumN (solveKnapsack items C).items ≤ C ∧
      valueSum (solveKnapsack items C).items = (solveKnapsack items C).value) ∧
    (∀ s : List Item, s.Sublist items → weightSumN s ≤ C →
      valueSum s ≤ (solveKnapsack items C).value) := by
  have hspec := backtrack_spec items hv hb items.length C
  have hsubl : (backtrack items items.length C).Sublist items := by
    have := backtrack_sublist items items.length C
    rwa [List.take_length] at this
  have hval : valueSum (backtrack items items.length C) = (solveKnapsack items C).value := by
    rw [solve_value_eq items hv hb C]
    exact hspec.2
  refine ⟨hspec.1, ⟨hsubl, hspec.1, hval⟩, solve_complete items hv hb C⟩

/-- Witness for C1: the amended theorem applied at a concrete two-item
instance with capacity 1, every hypothesis discharged by computation. -/
theorem solveKnapsack_optimal_witness :
    ((∀ it ∈ witnessItems, 1 ≤ it.weight) ∧
      (∀ it ∈ witnessItems, it.value.den = 1 ∧ 1 ≤ it.value) ∧
      valueSum witnessItems < 2 ^ 31 ∧ 1 ≤ 1) ∧
    ((solveKnapsack witnessItems 1).weight ≤ 1 ∧
    ((solveKnapsack witnessItems 1).items.Sublist witnessItems ∧
      weightSumN (solveKnapsack witnessItems 1).items ≤ 1 ∧
      valueSum (solveKnapsack witnessItems 1).items = (solveKnapsack witnessItems 1).value) ∧
    (∀ s : List Item, s.Sublist witnessItems → weightSumN s ≤ 1 →
      valueSum s ≤ (solveKnapsack witnessItems 1).value)) := by
  have h1 : ∀ it ∈ witnessItems, 1 ≤ it.weight := by norm_num [witnessItems]
  have h2 : ∀ it ∈ witnessItems, it.value.den = 1 ∧ 1 ≤ it.value := by norm_num [witnessItems]
  have h3 : valueSum witnessItems < 2 ^ 31 := by norm_num [witnessItems, valueSum]
  exact ⟨⟨h1, h2, h3, le_refl 1⟩, solveKnapsack_optimal witnessItems 1 h1 h2 h3 (le_refl 1)⟩

/-- Counterexample to C1 as stated: for the single item of weight 1 and
value 2^31 (a strictly positive integer) at capacity 1, the Int32Array
write wraps and solveKnapsack reports value -2^31, while the feasible
subset consisting of the item itself has value 2^31; the reported value is
not the maximum over feasible subsets. -/
theorem solveKnapsack_optimal_cex :
    (solveKnapsack [bigItem] 1).value = -2147483648 ∧
    ([bigItem].Sublist [bigItem] ∧ weightSumN [bigItem] ≤ 1 ∧
      valueSum [bigItem] = 2147483648) ∧
    ¬ (∀ s : List Item, s.Sublist [bigItem] → weightSumN s ≤ 1 →
        valueSum s ≤ (solveKnapsack [bigItem] 1).value) := by
  have hval : (solveKnapsack [bigItem] 1).value = -2147483648 := by
    norm_num [solveKnapsack, dp, bigItem, toInt32, truncQ, wrap32]
  refine ⟨hval, ⟨List.Sublist.refl _, by norm_num [weightSumN, bigItem],
    by norm_num [valueSum, bigItem]⟩, ?_⟩
  intro h
  have := h [bigItem] (List.Sublist.refl _) (by norm_num [weightSumN, bigItem])
  rw [hval] at this
  norm_num [valueSum, bigItem] at this

/-- C7 (amended): with positive integer weights and values of total value
below 2^31, the solution returned by solveKnapsack is internally
consistent: its items field is a subsequence of the input (original order),
weight is the sum of the selected weights, count their number, and value
the sum of the selected values. -/
theorem solveKnapsack_consistent (items : List Item) (C : ℕ)
    (_hw : ∀ it ∈ items, 1 ≤ it.weight)
    (hv : ∀ it ∈ items, it.value.den = 1 ∧ 1 ≤ it.value)
    (hb : valueSum items < 2 ^ 31) :
    (solveKnapsack items C).items.Sublist items ∧
    (solveKnapsack items C).weight = weightSumN (solveKnapsack items C).items ∧
    (solveKnapsack items C).count = (solveKnapsack items C).items.length ∧
    (solveKnapsack items C).value = valueSum (solveKnapsack items C).items := by
  have hspec := backtrack_spec items hv hb items.length C
  have hsubl : (backtrack items items.length C).Sublist items := by
    have := backtrack_sublist items items.length C
    rwa [List.take_length] at this
  refine ⟨hsubl, rfl, rfl, ?_⟩
  rw [solve_value_eq items hv hb C]
  exact hspec.2.symm

/-- Witness for C7: the amended consistency theorem at the same concrete
instance, hypotheses discharged by computation. -/
theorem solveKnapsack_consistent_witness :
    ((∀ it ∈ witnessItems, 1 ≤ it.weight) ∧
      (∀ it ∈ witnessItems, it.value.den = 1 ∧ 1 ≤ it.value) ∧
      valueSum witnessItems < 2 ^ 31) ∧
    ((solveKnapsack witnessItems 1).items.Sublist witnessItems ∧
    (solveKnapsack witnessItems 1).weight = weightSumN (solveKnapsack witnessItems 1).items ∧
    (solveKnapsack witnessItems 1).count = (solveKnapsack witnessItems 1).items.length ∧
    (solveKnapsack witnessItems 1).value = valueSum (solveKnapsack witnessItems 1).items) := by
  have h1 : ∀ it ∈ witnessItems, 1 ≤ it.weight := by norm_num [witnessItems]
  have h2 : ∀ it ∈ witnessItems, it.value.den = 1 ∧ 1 ≤ it.value := by norm_num [witnessItems]
  have h3 : valueSum witnessItems < 2 ^ 31 := by norm_num [witnessItems, valueSum]
  exact ⟨⟨h1, h2, h3⟩, solveKnapsack_consistent witnessItems 1 h1 h2 h3⟩

/-- Counterexample to C7 as stated: at the overflowing single-item instance
the selected items are exactly the big item, yet the reported value -2^31
differs from the sum 2^31 of the selected values. -/
theorem solveKnapsack_consistent_cex :
    (solveKnapsack [bigItem] 1).items = [bigItem] ∧
    (solveKnapsack [bigItem] 1).value = -2147483648 ∧
    valueSum (solveKnapsack [bigItem] 1).items = 2147483648 ∧
    (solveKnapsack [bigItem] 1).value ≠ valueSum (solveKnapsack [bigItem] 1).items := by
  have hit : (solveKnapsack [bigItem] 1).items = [bigItem] := by
    norm_num [solveKnapsack, backtrack, dp, bigItem, toInt32, truncQ, wrap32]
  have hval : (solveKnapsack [bigItem] 1).value = -2147483648 := by
    norm_num [solveKnapsack, dp, bigItem, toInt32, truncQ, wrap32]
  have hsum : valueSum (solveKnapsack [bigItem] 1).items = 2147483648 := by
    rw [hit]; norm_num [valueSum, bigItem]
  refine ⟨hit, hval, hsum, ?_⟩
  rw [hval, hsum]
  norm_num

/-- C10: the value solveKnapsack returns is always the cast of an integer,
whatever the (possibly fractional two-decimal) item values are, because
every table entry passes through the Int32Array ToInt32 conversion; and at
the one-item instance of weight 1 and value 3/2 with capacity 1 the
reported value is beaten by a feasible subset, so it is not the true
rational optimum. -/
theorem solveKnapsack_value_integral :
    (∀ (items : List Item) (capacity : ℕ),
      ∃ z : ℤ, (solveKnapsack items capacity).value = (z : ℚ)) ∧
    (∃ s : List Item, s.Sublist [⟨1, 1, (3/2 : ℚ)⟩] ∧ weightSumN s ≤ 1 ∧
      (solveKnapsack [⟨1, 1, (3/2 : ℚ)⟩] 1).value < valueSum s) := by
  constructor
  · intro items capacity
    exact ⟨dp items items.length capacity, rfl⟩
  · refine ⟨[⟨1, 1, (3/2 : ℚ)⟩], List.Sublist.refl _, by norm_num [weightSumN], ?_⟩
    have hval : (solveKnapsack [(⟨1, 1, (3/2 : ℚ)⟩ : Item)] 1).value = 1 := by
      norm_num [solveKnapsack, dp, toInt32, truncQ, wrap32]
    rw [hval]
    norm_num [valueSum]

/-!
Fallback capacity of generateInstance (app.js): after 10000 failed
attempts the code regenerates at the base seed and picks

  capacity = Math.min(budgetMax, sumWeights - 1)
  capacity = Math.max(budgetMin, capacity)
  if (capacity < 1) capacity = 1
-/

/-- The capacity computed on the fallback path of generateInstance. -/
def appFallbackCapacity (budgetMin budgetMax sumWeights : ℤ) : ℤ :=
  let c1 := min budgetMax (sumWeights - 1)
  let c2 := max budgetMin c1
  if c2 < 1 then 1 else c2

/-- C2 is violated by the code: when the requested budget range lies above
the sum of the item weights (budget range 50..100, total weight 10 — for
example ten items drawn uniform-integer with min = max = 1 have total 10
on every attempt, so the search exhausts its attempts and the fallback
runs), the fallback capacity is max(budgetMin, min(budgetMax, sum-1)) = 50,
which is not strictly below the weight sum 10 — contradicting the
documented invariant (the in-code budget ratio tooltip asserts the budget
is always below 100 percent of the total weight). -/
theorem appFallbackCapacity_violation :
    appFallbackCapacity 50 100 10 = 50 ∧ 1 ≤ appFallbackCapacity 50 100 10 ∧
    ¬ (appFallbackCapacity 50 100 10 < 10) := by
  norm_num [appFallbackCapacity]

/-!
Greedy fill (the greedyValue function): sort a copy of the items by
descending value/weight ratio (JavaScript sort is stable) and pack items
first-fit into the remaining capacity, accumulating value.
-/

/-- The sort comparator: item a precedes item b when the ratio of b does
not exceed the ratio of a (descending ratios, stable on ties). -/
def greedyRank (a b : Item) : Bool :=
  decide ((b.value / (b.weight : ℚ)) ≤ (a.value / (a.weight : ℚ)))

/-- The ratio-sorted copy of the item list. -/
def greedySorted (items : List Item) : List Item := items.mergeSort greedyRank

/-- The packing loop of greedyValue, accumulating total value. -/
def greedyGo : List Item → ℕ → ℚ
  | [], _ => 0
  | it :: rest, remCap =>
    if it.weight ≤ remCap then it.value + greedyGo rest (remCap - it.weight)
    else greedyGo rest remCap

/-- greedyValue: total value packed by the ratio-descending greedy fill. -/
def greedyValue (items : List Item) (capacity : ℕ) : ℚ :=
  greedyGo (greedySorted items) capacity

/-- Proof-side view of the packing loop: the list of packed items. -/
def greedyChosen : List Item → ℕ → List Item
  | [], _ => []
  | it :: rest, remCap =>
    if it.weight ≤ remCap then it :: greedyChosen rest (remCap - it.weight)
    else greedyChosen rest remCap

/-- The accumulated greedy value is the value of the packed items. -/
lemma greedyGo_eq (l : List Item) : ∀ c, greedyGo l c = valueSum (greedyChosen l c) := by
  induction l with
  | nil => intro c; simp [greedyGo, greedyChosen, valueSum]
  | cons it rest ih =>
    intro c
    rw [greedyGo, greedyChosen]
    split
    · simp [ih, valueSum]
    · exact ih c

/-- The packed items form a sublist of the scanned list. -/
lemma greedyChosen_sublist (l : List Item) : ∀ c, (greedyChosen l c).Sublist l := by
  induction l with
  | nil => intro c; rw [greedyChosen]
  | cons it rest ih =>
    intro c
    rw [greedyChosen]
    split
    · exact List.Sublist.cons₂ it (ih _)
    · exact List.Sublist.cons it (ih c)

/-- The packed items respect the capacity. -/
lemma greedyChosen_weight (l : List Item) : ∀ c, weightSumN (greedyChosen l c) ≤ c := by
  induction l with
  | nil => intro c; simp [greedyChosen, weightSumN]
  | cons it rest ih =>
    intro c
    rw [greedyChosen]
    split
    · next hfit =>
      rw [weightSumN, List.map_cons, List.sum_cons]
      have := ih (c - it.weight)
      rw [weightSumN] at this
      omega
    · exact ih c

/-- The greedy ratio as computed by generateInstance (app.js lines 252-260
and the fallback at line 285): greedy value over DP optimum when the
optimum is positive, else 0. -/
def greedyRatio (items : List Item) (capacity : ℕ) : ℚ :=
  let optVal := (solveKnapsack items capacity).value
  if 0 < optVal then greedyValue items capacity / optVal else 0

/-- C4 (amended): for strictly positive integer item weights and values of
total value below 2^31, the greedy ratio lies in [0, 1] when the optimal
value is positive and is defined as 0 otherwise; with continuous
(fractional) values the upper bound fails, see the counterexample. -/
theorem greedyRatio_bounds (items : List Item) (C : ℕ)
    (_hw : ∀ it ∈ items, 1 ≤ it.weight)
    (hv : ∀ it ∈ items, it.value.den = 1 ∧ 1 ≤ it.value)
    (hb : valueSum items < 2 ^ 31) :
    0 ≤ greedyRatio items C ∧ greedyRatio items C ≤ 1 := by
  rw [greedyRatio]
  split
  · next hpos =>
    have hperm : (greedySorted items).Perm items := List.mergeSort_perm items greedyRank
    have hchsub := greedyChosen_sublist (greedySorted items) C
    have hsp : (greedyChosen (greedySorted items) C).Subperm items :=
      List.Subperm.trans hchsub.subperm hperm.subperm
    obtain ⟨t, htperm, htsub⟩ := hsp
    have hwts : weightSumN t = weightSumN (greedyChosen (greedySorted items) C) := by
      rw [weightSumN, weightSumN]
      exact (htperm.map Item.weight).sum_eq
    have hvts : valueSum t = valueSum (greedyChosen (greedySorted items) C) := by
      rw [valueSum, valueSum]
      exact (htperm.map Item.value).sum_eq
    have hwt : weightSumN t ≤ C := by
      rw [hwts]; exact greedyChosen_weight (greedySorted items) C
    have hle := solve_complete items hv hb C t htsub hwt
    rw [hvts, ← greedyGo_eq] at hle
    have hg0 : 0 ≤ greedyValue items C := by
      rw [greedyValue, greedyGo_eq, valueSum]
      refine List.sum_nonneg ?_
      intro x hx
      rw [List.mem_map] at hx
      obtain ⟨it, hmem, rfl⟩ := hx
      have hit : it ∈ items := hperm.subset (hchsub.subset hmem)
      exact le_trans zero_le_one (hv it hit).2
    exact ⟨div_nonneg hg0 (le_of_lt hpos), (div_le_one hpos).mpr hle⟩
  · exact ⟨le_refl 0, zero_le_one⟩

/-- Witness for C4: the amended bounds applied at the concrete two-item
instance with capacity 1, hypotheses discharged by computation. -/
theorem greedyRatio_bounds_witness :
    ((∀ it ∈ witnessItems, 1 ≤ it.weight) ∧
      (∀ it ∈ witnessItems, it.value.den = 1 ∧ 1 ≤ it.value) ∧
      valueSum witnessItems < 2 ^ 31) ∧
    (0 ≤ greedyRatio witnessItems 1 ∧ greedyRatio witnessItems 1 ≤ 1) := by
  have h1 : ∀ it ∈ witnessItems, 1 ≤ it.weight := by norm_num [witnessItems]
  have h2 : ∀ it ∈ witnessItems, it.value.den = 1 ∧ 1 ≤ it.value := by norm_num [witnessItems]
  have h3 : valueSum witnessItems < 2 ^ 31 := by norm_num [witnessItems, valueSum]
  exact ⟨⟨h1, h2, h3⟩, greedyRatio_bounds witnessItems 1 h1 h2 h3⟩

/-- Counterexample to C4 as stated: in continuous-value mode the single
item of integer weight 1 and two-decimal value 3/2 at capacity 1 yields DP
optimum 1 (truncated by the Int32Array) but greedy value 3/2, so the
reported greedy ratio is 3/2, outside [0, 1]. -/
theorem greedyRatio_bounds_cex :
    greedyRatio [⟨1, 1, (3/2 : ℚ)⟩] 1 = 3/2 ∧ ¬ (greedyRatio [⟨1, 1, (3/2 : ℚ)⟩] 1 ≤ 1) := by
  have hval : (solveKnapsack [(⟨1, 1, (3/2 : ℚ)⟩ : Item)] 1).value = 1 := by
    norm_num [solveKnapsack, dp, toInt32, truncQ, wrap32]
  have hgv : greedyValue [(⟨1, 1, (3/2 : ℚ)⟩ : Item)] 1 = 3/2 := by
    rw [greedyValue, greedySorted, List.mergeSort]
    norm_num [greedyGo]
  have h : greedyRatio [⟨1, 1, (3/2 : ℚ)⟩] 1 = 3/2 := by
    rw [greedyRatio, hval, if_pos one_pos, hgv]
    norm_num
  exact ⟨h, by rw [h]; norm_num⟩

/-!
Sahni-k (computeSahniK): precompute a ratio-descending index permutation;
greedy-fill skips forced indices; for k = 0 test pure greedy, then for
k = 1..min(n,6) enumerate all index subsets of size exactly k (the
recursive enumerate walks increasing index sequences, i.e. the sublists of
range n of length k) with the shared found flag modelled by the any
combinator and the first-match loop by find?.  The string sentinel "> 6"
is modelled as none.
-/

/-- Value/weight ratio of a rational item. -/
def ItemQ.ratio (it : ItemQ) : ℚ := it.value / it.weight

/-- Comparator of the sortedIndices permutation: index a precedes b when
the ratio at b does not exceed the ratio at a. -/
def sahniRank (items : List ItemQ) (a b : ℕ) : Bool :=
  decide ((items.getD b default).ratio ≤ (items.getD a default).ratio)

/-- The ratio-descending, stable index permutation computed once per call. -/
def sahniSortedIndices (items : List ItemQ) : List ℕ :=
  (List.range items.length).mergeSort (sahniRank items)

/-- The greedyFill loop over a given index order. -/
def greedyFillGo (items : List ItemQ) (forced : List ℕ) : List ℕ → ℚ → ℚ
  | [], _ => 0
  | idx :: rest, remCap =>
    if idx ∈ forced then greedyFillGo items forced rest remCap
    else if (items.getD idx default).weight ≤ remCap then
      (items.getD idx default).value +
        greedyFillGo items forced rest (remCap - (items.getD idx default).weight)
    else greedyFillGo items forced rest remCap

/-- greedyFill: walk the precomputed ratio order, skip forced indices, pack
whatever fits. -/
def greedyFill (items : List ItemQ) (forced : List ℕ) (remCap : ℚ) : ℚ :=
  greedyFillGo items forced (sahniSortedIndices items) remCap

/-- Total weight of a forced index subset. -/
def forcedWeight (items : List ItemQ) (subset : List ℕ) : ℚ :=
  (subset.map fun idx => (items.getD idx default).weight).sum

/-- Total value of a forced index subset. -/
def forcedValue (items : List ItemQ) (subset : List ℕ) : ℚ :=
  (subset.map fun idx => (items.getD idx default).value).sum

/-- The per-subset test of the enumeration: the forced subset fits and
forced value plus greedy completion reaches the optimal value. -/
def sahniCheck (items : List ItemQ) (capacity : ℕ) (optimalValue : ℚ)
    (subset : List ℕ) : Bool :=
  decide (forcedWeight items subset ≤ (capacity : ℚ) ∧
    forcedValue items subset +
      greedyFill items subset ((capacity : ℚ) - forcedWeight items subset) ≥ optimalValue)

/-- computeSahniK: 0 when pure greedy reaches the optimum, else the first
k in 1..min(n,6) for which some size-k forced subset passes the check;
none models the "> 6" sentinel. -/
def computeSahniK (items : List ItemQ) (capacity : ℕ) (optimalValue : ℚ) : Option ℕ :=
  if greedyFill items [] (capacity : ℚ) ≥ optimalValue then some 0
  else
    match (List.range' 1 (min items.length 6)).find?
        (fun k => (List.sublistsLen k (List.range items.length)).any
          (sahniCheck items capacity optimalValue)) with
    | some k => some k
    | none => none

/-- A forced subset of size exactly k achieving the optimum exists. -/
def sahniAchieves (items : List ItemQ) (capacity : ℕ) (optimalValue : ℚ) (k : ℕ) : Prop :=
  ∃ l : List ℕ, l.Sublist (List.range items.length) ∧ l.length = k ∧
    sahniCheck items capacity optimalValue l = true

/-- The any combinator over the size-k enumeration decides achievability. -/
lemma sahniAny_iff (items : List ItemQ) (cap : ℕ) (opt : ℚ) (k : ℕ) :
    ((List.sublistsLen k (List.range items.length)).any
      (sahniCheck items cap opt) = true) ↔ sahniAchieves items cap opt k := by
  rw [List.any_eq_true]
  constructor
  · rintro ⟨l, hmem, hchk⟩
    rw [List.mem_sublistsLen] at hmem
    exact ⟨l, hmem.1, hmem.2, hchk⟩
  · rintro ⟨l, hsub, hlen, hchk⟩
    exact ⟨l, List.mem_sublistsLen.mpr ⟨hsub, hlen⟩, hchk⟩

/-- Size-0 achievability is exactly the pure-greedy test. -/
lemma sahniAchieves_zero (items : List ItemQ) (cap : ℕ) (opt : ℚ) :
    sahniAchieves items cap opt 0 ↔ greedyFill items [] (cap : ℚ) ≥ opt := by
  constructor
  · rintro ⟨l, _, hlen, hchk⟩
    rw [List.length_eq_zero.mp hlen] at hchk
    rw [sahniCheck, decide_eq_true_iff] at hchk
    have h2 := hchk.2
    rw [forcedWeight, forcedValue] at h2
    simpa using h2
  · intro h
    refine ⟨[], List.nil_sublist _, rfl, ?_⟩
    rw [sahniCheck, decide_eq_true_iff]
    refine ⟨?_, ?_⟩
    · rw [forcedWeight]
      simp
    · rw [forcedWeight, forcedValue]
      simpa using h

/-- Achievable sizes cannot exceed the item count. -/
lemma sahniAchieves_le_length {items : List ItemQ} {cap : ℕ} {opt : ℚ} {k : ℕ}
    (h : sahniAchieves items cap opt k) : k ≤ items.length := by
  obtain ⟨l, hsub, hlen, _⟩ := h
  have hle := hsub.length_le
  rw [List.length_range] at hle
  omega

/-- The first match of find? over an ascending integer range: the found
element satisfies the test, lies in the range, and everything in the range
before it fails the test. -/
lemma find?_range'_spec {p : ℕ → Bool} : ∀ {n s k : ℕ},
    (List.range' s n).find? p = some k →
    p k = true ∧ s ≤ k ∧ k < s + n ∧ ∀ j, s ≤ j → j < k → p j = false := by
  intro n
  induction n with
  | zero => intro s k h; simp [List.range'] at h
  | succ n ih =>
    intro s k h
    rw [List.range'_succ] at h
    cases hp : p s with
    | true =>
      rw [List.find?_cons_of_pos _ hp] at h
      have hk : k = s := by injection h with h2; omega
      subst hk
      exact ⟨hp, le_refl _, by omega, fun j h1 h2 => absurd (lt_of_le_of_lt h1 h2) (lt_irrefl _)⟩
    | false =>
      rw [List.find?_cons_of_neg _ (by rw [hp]; exact Bool.false_ne_true)] at h
      obtain ⟨h1, h2, h3, h4⟩ := ih h
      refine ⟨h1, by omega, by omega, ?_⟩
      intro j hj1 hj2
      rcases Nat.eq_or_lt_of_le hj1 with rfl | hlt
      · exact hp
      · exact h4 j hlt hj2

/-- C3: computeSahniK returns the first k from 0 upward for which some
forced subset of size exactly k that fits the capacity, completed by the
ratio-descending greedy fill over the remaining items, reaches the optimal
value; it returns 0 exactly when pure greedy already reaches the optimum,
and the sentinel (none, printed as the "> 6" string) exactly when no
k ≤ 6 achieves the optimum. -/
theorem computeSahniK_first (items : List ItemQ) (capacity : ℕ) (optimalValue : ℚ)
    (_hw : ∀ it ∈ items, 0 < it.weight) :
    (∀ k, computeSahniK items capacity optimalValue = some k →
      k ≤ 6 ∧ sahniAchieves items capacity optimalValue k ∧
      ∀ j < k, ¬ sahniAchieves items capacity optimalValue j) ∧
    (computeSahniK items capacity optimalValue = none ↔
      ∀ k ≤ 6, ¬ sahniAchieves items capacity optimalValue k) ∧
    (computeSahniK items capacity optimalValue = some 0 ↔
      greedyFill items [] (capacity : ℚ) ≥ optimalValue) := by
  rw [computeSahniK]
  by_cases hg : greedyFill items [] (capacity : ℚ) ≥ optimalValue
  · rw [if_pos hg]
    refine ⟨?_, ?_, ?_⟩
    · intro k hk
      have hk0 : k = 0 := by injection hk with h2; omega
      subst hk0
      exact ⟨by omega, (sahniAchieves_zero items capacity optimalValue).mpr hg,
        fun j hj => absurd hj (Nat.not_lt_zero j)⟩
    · constructor
      · intro h; exact absurd h (Option.some_ne_none 0)
      · intro h
        exact absurd ((sahniAchieves_zero items capacity optimalValue).mpr hg)
          (h 0 (by omega))
    · exact ⟨fun _ => hg, fun _ => rfl⟩
  · rw [if_neg hg]
    have hach0 : ¬ sahniAchieves items capacity optimalValue 0 := by
      rw [sahniAchieves_zero]; exact hg
    cases hf : (List.range' 1 (min items.length 6)).find?
        (fun k => (List.sublistsLen k (List.range items.length)).any
          (sahniCheck items capacity optimalValue)) with
    | some k =>
      obtain ⟨hpk, hk1, hk2, hmin⟩ := find?_range'_spec hf
      have hk6 : k ≤ 6 := by omega
      have hach : sahniAchieves items capacity optimalValue k :=
        (sahniAny_iff items capacity optimalValue k).mp hpk
      have hminP : ∀ j < k, ¬ sahniAchieves items capacity optimalValue j := by
        intro j hj hachj
        cases j with
        | zero => exact hach0 hachj
        | succ j' =>
          have := hmin (j' + 1) (by omega) hj
          rw [← sahniAny_iff items capacity optimalValue (j' + 1)] at hachj
          rw [this] at hachj
          exact Bool.false_ne_true hachj
      refine ⟨?_, ?_, ?_⟩
      · intro k' hk'
        have : k' = k := by injection hk' with h2; omega
        subst this
        exact ⟨hk6, hach, hminP⟩
      · constructor
        · intro h; exact absurd h (Option.some_ne_none k)
        · intro h; exact absurd hach (h k hk6)
      · constructor
        · intro h
          have hk0 : k = 0 := Option.some.inj h
          omega
        · intro h; exact absurd h hg
    | none =>
      have hnone := List.find?_eq_none.mp hf
      refine ⟨?_, ?_, ?_⟩
      · intro k hk; exact absurd hk (Option.noConfusion)
      · refine ⟨fun _ => ?_, fun _ => rfl⟩
        intro k hk6 hach
        cases k with
        | zero => exact hach0 hach
        | succ k' =>
          have hlen := sahniAchieves_le_length hach
          have hmem : (k' + 1) ∈ List.range' 1 (min items.length 6) := by
            rw [List.mem_range']
            exact ⟨k', by omega, by omega⟩
          have := hnone _ hmem
          rw [← sahniAny_iff items capacity optimalValue (k' + 1)] at hach
          exact this hach
      · constructor
        · intro h; exact absurd h (Option.noConfusion)
        · intro h; exact absurd h hg

/-- Concrete single-item input for the Sahni-k witness. -/
def sahniWitnessItems : List ItemQ := [⟨1, 1, 1⟩]

/-- Witness for C3: the characterisation applied to a concrete one-item
instance, the positivity hypothesis discharged by computation. -/
theorem computeSahniK_first_witness :
    (∀ it ∈ sahniWitnessItems, 0 < it.weight) ∧
    ((∀ k, computeSahniK sahniWitnessItems 1 1 = some k →
      k ≤ 6 ∧ sahniAchieves sahniWitnessItems 1 1 k ∧
      ∀ j < k, ¬ sahniAchieves sahniWitnessItems 1 1 j) ∧
    (computeSahniK sahniWitnessItems 1 1 = none ↔
      ∀ k ≤ 6, ¬ sahniAchieves sahniWitnessItems 1 1 k) ∧
    (computeSahniK sahniWitnessItems 1 1 = some 0 ↔
      greedyFill sahniWitnessItems [] ((1 : ℕ) : ℚ) ≥ 1)) := by
  have h1 : ∀ it ∈ sahniWitnessItems, 0 < it.weight := by norm_num [sahniWitnessItems]
  exact ⟨h1, computeSahniK_first sahniWitnessItems 1 1 h1⟩

/-!
Item synthesizer (generateItems).  The pseudo-random sampling pipeline
(mulberry32 stream, Box-Muller normal draws, the three samplers) performs
transcendental floating-point arithmetic, so the synthesizer is embedded
with the per-item draws abstracted as streams: wDraw i is the i-th weight
sample, vDraw i the i-th independent value sample, nDraw i the i-th noise
normal.  The two generation passes, the minimum-value clamp, the
ratio-spread pass and the integer-ratio snap are embedded from the source.
The uniform integer sampler needs no transcendentals and is embedded
exactly. -/

/-- sampleUniformInt: floor(draw * (max - min + 1)) + min. -/
def sampleUniformInt (u : ℚ) (lo hi : ℤ) : ℤ := ⌊u * ((hi : ℚ) - (lo : ℚ) + 1)⌋ + lo

/-- Correlation mode of the value pass. -/
inductive Correlation
  | independent
  | positive
  | negative
deriving DecidableEq

/-- Ratio-spread setting (medium is the identity). -/
inductive RatioSpread
  | low
  | medium
  | high
deriving DecidableEq

/-- The configuration fields generateItems reads. -/
structure GenConfig where
  nItems : ℕ
  valueInt : Bool
  correlation : Correlation
  alpha : ℚ
  noiseSd : ℚ
  ratioSpread : RatioSpread
  integerRatios : Bool

/-- The maximum weight tracked during the first pass (starting from 0). -/
def genMaxWeight (cfg : GenConfig) (wDraw : ℕ → ℚ) : ℚ :=
  ((List.range cfg.nItems).map wDraw).foldl max 0

/-- The raw value of the second pass before the minimum clamp. -/
def rawValue (cfg : GenConfig) (maxW w vDraw nDraw : ℚ) : ℚ :=
  match cfg.correlation with
  | .independent => vDraw
  | .positive =>
    let v := cfg.alpha * w + cfg.noiseSd * nDraw
    if cfg.valueInt then ((jsRound v : ℤ) : ℚ) else toFixed2 v
  | .negative =>
    let v := cfg.alpha * (maxW - w) + cfg.noiseSd * nDraw
    if cfg.valueInt then ((jsRound v : ℤ) : ℚ) else toFixed2 v

/-- The minimum positive value used by the clamps. -/
def minPosValue (cfg : GenConfig) : ℚ := if cfg.valueInt then 1 else 1/100

/-- Passes one and two: weights from the stream, then values with the
correlation rule and the minimum clamp. -/
def genBase (cfg : GenConfig) (wDraw vDraw nDraw : ℕ → ℚ) : List ItemQ :=
  (List.range cfg.nItems).map fun i =>
    ⟨i + 1, wDraw i,
      max (minPosValue cfg) (rawValue cfg (genMaxWeight cfg wDraw) (wDraw i) (vDraw i) (nDraw i))⟩

/-- The spread factor lambda for the non-medium settings. -/
def spreadLambda (cfg : GenConfig) : ℚ := if cfg.ratioSpread = .low then 3/10 else 2

/-- The ratio-spread pass: compress or stretch value/weight ratios around
their pre-pass mean, clamp the ratio at 1/100, recompute and re-round the
value per the integer flag. -/
def applySpread (cfg : GenConfig) (l : List ItemQ) : List ItemQ :=
  if cfg.ratioSpread = .medium then l
  else
    let ratios := l.map fun it => it.value / it.weight
    let meanRatio := ratios.sum / (ratios.length : ℚ)
    l.map fun it =>
      let newRatio := meanRatio + spreadLambda cfg * (it.value / it.weight - meanRatio)
      let clamped := max (1/100) newRatio
      let nv := clamped * it.weight
      ⟨it.id, it.weight,
        if cfg.valueInt then max 1 ((jsRound nv : ℤ) : ℚ) else max (1/100) (toFixed2 nv)⟩

/-- The integer-ratio snap pass: round each value to the nearest integer
multiple (at least 1) of its weight. -/
def applySnap (cfg : GenConfig) (l : List ItemQ) : List ItemQ :=
  if cfg.integerRatios then
    l.map fun it =>
      ⟨it.id, it.weight, ((max 1 (jsRound (it.value / it.weight)) : ℤ) : ℚ) * it.weight⟩
  else l

/-- generateItems: two passes, then the optional spread and snap passes. -/
def generateItems (cfg : GenConfig) (wDraw vDraw nDraw : ℕ → ℚ) : List ItemQ :=
  applySnap cfg (applySpread cfg (genBase cfg wDraw vDraw nDraw))

/-- The configuration of the C6 failing input: one item, integer values,
independent correlation, medium spread, no snap, and uniform integer
weights with min = max = 0. -/
def c6Config : GenConfig := ⟨1, true, .independent, 0, 0, .medium, false⟩

/-- C6 is violated by the code: sampleUniformInt with min = max = 0 returns
floor(u) = 0 for every pseudo-random draw u in [0,1), so with a uniform
integer weight distribution over [0,0] every generated item has weight 0
for every seed — shown here at the draw 1/2 — contradicting the invariant
that every item weight is strictly positive (and the sampler header comment
that integer variants are at least 1). -/
theorem generateItems_zero_weight :
    (∀ u : ℚ, 0 ≤ u → u < 1 → sampleUniformInt u 0 0 = 0) ∧
    generateItems c6Config (fun _ => ((sampleUniformInt (1/2) 0 0 : ℤ) : ℚ))
      (fun _ => 5) (fun _ => 0) = [⟨1, 0, 5⟩] ∧
    ¬ (0 < ((⟨1, 0, 5⟩ : ItemQ)).weight) := by
  refine ⟨?_, ?_, by norm_num⟩
  · intro u h0 h1
    rw [sampleUniformInt]
    have : u * ((0 : ℤ) - (0 : ℤ) + 1) = u := by push_cast; ring
    rw [this, Int.floor_eq_zero_iff.mpr ⟨h0, h1⟩]
    norm_num
  · norm_num [generateItems, applySnap, applySpread, genBase, rawValue, minPosValue,
      c6Config, sampleUniformInt, genMaxWeight]
    rw [show List.range 1 = [0] from rfl]
    simp

/-- Weights survive the spread pass unchanged, itemwise. -/
lemma mem_applySpread_weight {cfg : GenConfig} {l : List ItemQ} {it : ItemQ}
    (h : it ∈ applySpread cfg l) : ∃ it0 ∈ l, it.weight = it0.weight := by
  rw [applySpread] at h
  split at h
  · exact ⟨it, h, rfl⟩
  · rw [List.mem_map] at h
    obtain ⟨it0, hmem, rfl⟩ := h
    exact ⟨it0, hmem, rfl⟩

/-- Weights of the base pass are the weight draws. -/
lemma mem_genBase_weight {cfg : GenConfig} {wDraw vDraw nDraw : ℕ → ℚ} {it : ItemQ}
    (h : it ∈ genBase cfg wDraw vDraw nDraw) : ∃ i, i < cfg.nItems ∧ it.weight = wDraw i := by
  rw [genBase, List.mem_map] at h
  obtain ⟨i, hmem, rfl⟩ := h
  rw [List.mem_range] at hmem
  exact ⟨i, hmem, rfl⟩

/-- C9: with the integer-ratio snap enabled and positive weight draws,
every generated item value is an exact integer multiple (at least 1) of its
weight, and the value/weight ratio is at least 1 — for integer and
continuous modes alike (the weight draws and the value flag are arbitrary). -/
theorem generateItems_integer_ratios (cfg : GenConfig) (wDraw vDraw nDraw : ℕ → ℚ)
    (hir : cfg.integerRatios = true)
    (hw : ∀ i, 0 < wDraw i) :
    ∀ it ∈ generateItems cfg wDraw vDraw nDraw,
      0 < it.weight ∧ ∃ r : ℤ, 1 ≤ r ∧ it.value = (r : ℚ) * it.weight ∧
        1 ≤ it.value / it.weight := by
  intro it hmem
  rw [generateItems, applySnap, if_pos hir, List.mem_map] at hmem
  obtain ⟨it2, hmem2, rfl⟩ := hmem
  obtain ⟨it0, hmem0, hweq⟩ := mem_applySpread_weight hmem2
  obtain ⟨i, _, hwd⟩ := mem_genBase_weight hmem0
  have hwpos : 0 < it2.weight := by rw [hweq, hwd]; exact hw i
  refine ⟨hwpos, max 1 (jsRound (it2.value / it2.weight)), le_max_left _ _, rfl, ?_⟩
  have hne : it2.weight ≠ 0 := ne_of_gt hwpos
  rw [mul_div_assoc, div_self hne, mul_one]
  have : (1 : ℚ) = ((1 : ℤ) : ℚ) := by norm_num
  rw [this]
  exact_mod_cast le_max_left 1 (jsRound (it2.value / it2.weight))

/-- Configuration for the C9 witness: one item, continuous values, snap on. -/
def c9Config : GenConfig := ⟨1, false, .independent, 0, 0, .medium, true⟩

/-- Witness for C9: the snap theorem applied at a concrete configuration
and concrete draws, hypotheses discharged by computation. -/
theorem generateItems_integer_ratios_witness :
    (c9Config.integerRatios = true ∧ ∀ i : ℕ, 0 < ((2 : ℚ))) ∧
    (∀ it ∈ generateItems c9Config (fun _ => 2) (fun _ => 5) (fun _ => 0),
      0 < it.weight ∧ ∃ r : ℤ, 1 ≤ r ∧ it.value = (r : ℚ) * it.weight ∧
        1 ≤ it.value / it.weight) := by
  have h1 : c9Config.integerRatios = true := rfl
  have h2 : ∀ i : ℕ, 0 < ((fun (_ : ℕ) => (2 : ℚ)) i) := fun _ => by norm_num
  exact ⟨⟨h1, fun i => h2 i⟩,
    generateItems_integer_ratios c9Config (fun _ => 2) (fun _ => 5) (fun _ => 0) h1 h2⟩

/-!
Paste parsing (parsePastedItems in budget-finder-app.js).  The string
splitting and parseFloat calls are I/O glue; a line is modelled as its list
of parsed tokens, none standing for a token parseFloat maps to NaN.  A line
is kept when it has at least two tokens, both parse, and both are strictly
positive; kept values go through Math.round; the result is padded with
(1,1) items and truncated to the fixed item count (NUM_ITEMS = 12 in the
source); if nothing parses the operation fails (none). -/

/-- Per-line filter of parsePastedItems. -/
def lineParse (line : List (Option ℚ)) : Option (ℚ × ℚ) :=
  match line with
  | some w :: some v :: _ => if 0 < w ∧ 0 < v then some (w, v) else none
  | _ => none

/-- The push loop: ids are assigned sequentially, weight and value are
rounded. -/
def buildParsedItems (startId : ℕ) : List (ℚ × ℚ) → List ItemQ
  | [] => []
  | wv :: rest =>
    ⟨startId, ((jsRound wv.1 : ℤ) : ℚ), ((jsRound wv.2 : ℤ) : ℚ)⟩ :: buildParsedItems (startId + 1) rest

/-- The pad loop: items of weight 1 and value 1 with sequential ids. -/
def padItems (startId : ℕ) : ℕ → List ItemQ
  | 0 => []
  | count + 1 => ⟨startId, 1, 1⟩ :: padItems (startId + 1) count

/-- parsePastedItems: filter the lines, fail when nothing parsed, else pad
and truncate to the fixed item count. -/
def parsePastedItems (lines : List (List (Option ℚ))) (numItems : ℕ) : Option (List ItemQ) :=
  let raw := lines.filterMap lineParse
  if raw.isEmpty then none
  else
    let base := buildParsedItems 1 raw
    some ((base ++ padItems (base.length + 1) (numItems - base.length)).take numItems)

/-- Inversion of the per-line filter: a kept pair is strictly positive and
both tokens occur on the line. -/
lemma lineParse_some {line : List (Option ℚ)} {wv : ℚ × ℚ} (h : lineParse line = some wv) :
    0 < wv.1 ∧ 0 < wv.2 ∧ some wv.1 ∈ line ∧ some wv.2 ∈ line := by
  match line, h with
  | some w :: some v :: rest, h => ?_
  rw [lineParse] at h
  split at h
  · next hpos =>
    have := Option.some.inj h
    subst this
    exact ⟨hpos.1, hpos.2, List.mem_cons_self _ _,
      List.mem_cons_of_mem _ (List.mem_cons_self _ _)⟩
  · exact absurd h (Option.noConfusion)

/-- Members of the push loop come from kept pairs, rounded. -/
lemma mem_buildParsedItems {raw : List (ℚ × ℚ)} {it : ItemQ} : ∀ {s : ℕ},
    it ∈ buildParsedItems s raw →
    ∃ wv ∈ raw, it.weight = ((jsRound wv.1 : ℤ) : ℚ) ∧ it.value = ((jsRound wv.2 : ℤ) : ℚ) := by
  induction raw with
  | nil => intro s h; rw [buildParsedItems] at h; exact absurd h (List.not_mem_nil it)
  | cons wv rest ih =>
    intro s h
    rw [buildParsedItems] at h
    rcases List.mem_cons.mp h with rfl | h2
    · exact ⟨wv, List.mem_cons_self _ _, rfl, rfl⟩
    · obtain ⟨wv2, hmem, hw2, hv2⟩ := ih h2
      exact ⟨wv2, List.mem_cons_of_mem _ hmem, hw2, hv2⟩

/-- Members of the pad loop are (1,1) items. -/
lemma mem_padItems {it : ItemQ} : ∀ {s c : ℕ},
    it ∈ padItems s c → it.weight = 1 ∧ it.value = 1 := by
  intro s c
  induction c generalizing s with
  | zero => intro h; rw [padItems] at h; exact absurd h (List.not_mem_nil it)
  | succ c ih =>
    intro h
    rw [padItems] at h
    rcases List.mem_cons.mp h with rfl | h2
    · exact ⟨rfl, rfl⟩
    · exact ih h2

/-- The pad loop produces exactly the requested number of items. -/
lemma padItems_length : ∀ (c s : ℕ), (padItems s c).length = c := by
  intro c
  induction c with
  | zero => intro s; rw [padItems]; rfl
  | succ c ih =>
    intro s
    rw [padItems, List.length_cons, ih]

/-- Rounding a rational that is at least one half gives at least 1. -/
lemma jsRound_ge_one {x : ℚ} (h : 1/2 ≤ x) : 1 ≤ jsRound x := by
  rw [jsRound]
  refine Int.le_floor.mpr ?_
  push_cast
  linarith

/-- C8 (amended): parsing drops malformed and non-positive lines silently
and pads or truncates to the fixed item count; it fails exactly when no
line parses; and every produced item has a nonnegative integer weight and
value which are moreover at least 1 whenever every successfully parsed
token is either non-positive (hence dropped) or at least one half — in
particular for integer-valued input.  Without that restriction strict
positivity fails: Math.round sends positive weights below one half to 0,
see the counterexample. -/
theorem parsePastedItems_spec (lines : List (List (Option ℚ))) (numItems : ℕ)
    (htok : ∀ line ∈ lines, ∀ q ∈ line, ∀ x : ℚ, q = some x → x ≤ 0 ∨ 1/2 ≤ x) :
    (parsePastedItems lines numItems = none ↔ ∀ line ∈ lines, lineParse line = none) ∧
    (∀ out, parsePastedItems lines numItems = some out →
      out.length = numItems ∧
      ∀ it ∈ out, (∃ n : ℕ, 1 ≤ n ∧ it.weight = (n : ℚ)) ∧
        (∃ m : ℕ, 1 ≤ m ∧ it.value = (m : ℚ))) := by
  constructor
  · rw [parsePastedItems]
    by_cases hemp : (lines.filterMap lineParse).isEmpty
    · rw [if_pos hemp]
      simp only [true_iff]
      rw [List.isEmpty_iff] at hemp
      intro line hline
      by_contra hne
      rcases Option.ne_none_iff_exists.mp hne with ⟨wv, hwv⟩
      have : wv ∈ lines.filterMap lineParse := List.mem_filterMap.mpr ⟨line, hline, hwv.symm⟩
      rw [hemp] at this
      exact List.not_mem_nil wv this
    · rw [if_neg hemp]
      constructor
      · intro h; exact absurd h (Option.noConfusion)
      · intro h
        rw [List.isEmpty_iff] at hemp
        refine absurd (List.filterMap_eq_nil.mpr ?_) hemp
        intro line hline
        exact h line hline
  · intro out hout
    rw [parsePastedItems] at hout
    split at hout
    · exact absurd hout (Option.noConfusion)
    · next hemp =>
      have hout2 := Option.some.inj hout
      constructor
      · rw [← hout2, List.length_take, List.length_append, padItems_length]
        have : ¬ (buildParsedItems 1 (lines.filterMap lineParse)).length = 0 := by
          intro hzero
          rw [List.length_eq_zero] at hzero
          rw [List.isEmpty_iff] at hemp
          refine hemp ?_
          cases hraw : lines.filterMap lineParse with
          | nil => rfl
          | cons wv rest =>
            rw [hraw, buildParsedItems] at hzero
            exact absurd hzero (List.cons_ne_nil _ _)
        omega
      · intro it hit
        rw [← hout2] at hit
        have hit2 := List.mem_of_mem_take hit
        rcases List.mem_append.mp hit2 with hbase | hpad
        · obtain ⟨wv, hmem, hw2, hv2⟩ := mem_buildParsedItems hbase
          obtain ⟨line, hline, hlp⟩ := List.mem_filterMap.mp hmem
          obtain ⟨hpw, hpv, hmw, hmv⟩ := lineParse_some hlp
          have hw12 : 1/2 ≤ wv.1 := by
            rcases htok line hline _ hmw wv.1 rfl with h | h
            · exact absurd hpw (not_lt.mpr h)
            · exact h
          have hv12 : 1/2 ≤ wv.2 := by
            rcases htok line hline _ hmv wv.2 rfl with h | h
            · exact absurd hpv (not_lt.mpr h)
            · exact h
          have hw1 := jsRound_ge_one hw12
          have hv1 := jsRound_ge_one hv12
          constructor
          · refine ⟨(jsRound wv.1).toNat, by omega, ?_⟩
            rw [hw2]
            congr 1
            omega
          · refine ⟨(jsRound wv.2).toNat, by omega, ?_⟩
            rw [hv2]
            congr 1
            omega
        · obtain ⟨hw1, hv1⟩ := mem_padItems hpad
          exact ⟨⟨1, le_refl 1, by rw [hw1]; norm_num⟩, ⟨1, le_refl 1, by rw [hv1]; norm_num⟩⟩

/-- Concrete token lists for the C8 witness: the single line 4, 7. -/
def parseWitnessLines : List (List (Option ℚ)) := [[some 4, some 7]]

/-- Witness for C8: the amended parsing theorem at a concrete one-line
integer input with item count 3, hypotheses discharged by computation. -/
theorem parsePastedItems_spec_witness :
    (∀ line ∈ parseWitnessLines, ∀ q ∈ line, ∀ x : ℚ, q = some x → x ≤ 0 ∨ 1/2 ≤ x) ∧
    ((parsePastedItems parseWitnessLines 3 = none ↔
      ∀ line ∈ parseWitnessLines, lineParse line = none) ∧
    (∀ out, parsePastedItems parseWitnessLines 3 = some out →
      out.length = 3 ∧
      ∀ it ∈ out, (∃ n : ℕ, 1 ≤ n ∧ it.weight = (n : ℚ)) ∧
        (∃ m : ℕ, 1 ≤ m ∧ it.value = (m : ℚ)))) := by
  have h1 : ∀ line ∈ parseWitnessLines, ∀ q ∈ line, ∀ x : ℚ, q = some x → x ≤ 0 ∨ 1/2 ≤ x := by
    intro line hline q hq x hx
    rw [parseWitnessLines] at hline
    rcases List.mem_singleton.mp hline with rfl
    rcases List.mem_cons.mp hq with rfl | hq2
    · right; rw [Option.some.inj hx.symm]; norm_num
    · rcases List.mem_singleton.mp hq2 with rfl
      right; rw [Option.some.inj hx.symm]; norm_num
  exact ⟨h1, parsePastedItems_spec parseWitnessLines 3 h1⟩

/-- The full parse result at the counterexample input. -/
def parseCexOut : List ItemQ :=
  [⟨1, 0, 5⟩, ⟨2, 1, 1⟩, ⟨3, 1, 1⟩, ⟨4, 1, 1⟩, ⟨5, 1, 1⟩, ⟨6, 1, 1⟩, ⟨7, 1, 1⟩,
   ⟨8, 1, 1⟩, ⟨9, 1, 1⟩, ⟨10, 1, 1⟩, ⟨11, 1, 1⟩, ⟨12, 1, 1⟩]

/-- Counterexample to C8 as stated: the line 0.3, 5 passes the positivity
filter (0.3 > 0) but Math.round maps the weight to 0, so the loaded item
set (at the fixed count 12 of the source) contains an item of weight 0 —
not every item handed on has strictly positive weight. -/
theorem parsePastedItems_cex :
    parsePastedItems [[some (3/10), some 5]] 12 = some parseCexOut ∧
    (parseCexOut.getD 0 default).weight = 0 ∧
    ¬ (0 < (parseCexOut.getD 0 default).weight) := by
  have h1 : parsePastedItems [[some (3/10), some 5]] 12 = some parseCexOut := by
    norm_num [parsePastedItems, List.filterMap_cons, lineParse, buildParsedItems, padItems,
      jsRound, parseCexOut]
  refine ⟨h1, by norm_num [parseCexOut], by norm_num [parseCexOut]⟩

/-!
Batch dual-budget search (generateSingleInstance in batch-app.js).  The
per-attempt item synthesis is the seeded floating-point pipeline, so the
loop is parameterized by the per-attempt item lists gen : attempt number to
items (attempt a uses seed base_a, attempt 0 the base seed verbatim).  The
capacity scan, the per-budget filters, the near-miss bookkeeping and the
two fallback branches are embedded from the source; the shared mutable
bestFallback variable becomes the loop accumulator, and the sol field of a
capacity result is always populated by the batch findCapacityInRange, so
the lowResult.sol-or-solve expression is its sol field.
-/

/-- Feasible-subset statistics by bitmask brute force: masks 1..2^n-1,
counting subsets that fit and subsets whose value reaches alphaPercent
percent of the optimum (compared as value*100 against alpha*opt). -/
def maskWeight (items : List Item) (mask : ℕ) : ℕ :=
  ((items.enum.filter fun p => mask.testBit p.1).map fun p => p.2.weight).sum

/-- Total value of the subset encoded by a bitmask. -/
def maskValue (items : List Item) (mask : ℕ) : ℚ :=
  ((items.enum.filter fun p => mask.testBit p.1).map fun p => p.2.value).sum

/-- countBundleStats: (feasible, n90) over all non-empty subsets. -/
def countBundleStats (items : List Item) (capacity : ℕ) (optValue : ℚ)
    (alphaPercent : ℚ) : ℕ × ℕ :=
  let masks := List.range' 1 (2 ^ items.length - 1)
  (masks.countP fun m => decide (maskWeight items m ≤ capacity),
   masks.countP fun m =>
     decide (maskWeight items m ≤ capacity) &&
     decide (maskValue items m * 100 ≥ alphaPercent * optValue))

/-- Result of the batch findCapacityInRange: capacity, its solution, and
the Sahni-k value when a Sahni filter selected the capacity (the outer
none models the null stored without a filter). -/
structure CapResult where
  capacity : ℕ
  sol : Solution
  sahniK : Option (Option ℕ)
deriving DecidableEq

/-- Per-candidate filter of the batch capacity scan: optimal count range
and optimal value range. -/
def capCandidateOk (items : List Item) (optMin optMax minOptVal maxOptVal : Option ℤ)
    (c : ℕ) : Bool :=
  let sol := solveKnapsack items c
  (match optMin, optMax with
   | some mn, some mx => decide (mn ≤ (sol.count : ℤ)) && decide ((sol.count : ℤ) ≤ mx)
   | _, _ => true) &&
  (match minOptVal with | some m => decide ((m : ℚ) ≤ sol.value) | none => true) &&
  (match maxOptVal with | some m => decide (sol.value ≤ (m : ℚ)) | none => true)

/-- The batch findCapacityInRange: scan every integer capacity in
[max(1,budgetMin), min(budgetMax, sumWeights-1)], keep candidates passing
the count/value filters, then pick the middle candidate (no Sahni filter)
or the first candidate achieving the target Sahni-k. -/
def findCapacityInRangeB (items : List Item) (budgetMin budgetMax : ℤ)
    (optMin optMax : Option ℤ) (targetSahniK : Option ℕ)
    (minOptVal maxOptVal : Option ℤ) : Option CapResult :=
  let lo : ℤ := max 1 budgetMin
  let hi : ℤ := min budgetMax ((weightSumN items : ℤ) - 1)
  if lo > hi then none
  else
    let candidates := (List.range' lo.toNat ((hi - lo).toNat + 1)).filter
      (capCandidateOk items optMin optMax minOptVal maxOptVal)
    if candidates.isEmpty then none
    else
      match targetSahniK with
      | none =>
        let cap := candidates.getD (candidates.length / 2) 0
        some ⟨cap, solveKnapsack items cap, none⟩
      | some targetK =>
        match candidates.find? (fun c =>
            computeSahniK (items.map Item.toQ) c (solveKnapsack items c).value
              = some targetK) with
        | some c => some ⟨c, solveKnapsack items c, some (some targetK)⟩
        | none => none

/-- The configuration fields generateSingleInstance reads. -/
structure BatchConfig where
  nItems : ℕ
  budgetLowMin : ℤ
  budgetLowMax : ℤ
  budgetHighMin : ℤ
  budgetHighMax : ℤ
  optLowMin : Option ℤ
  optLowMax : Option ℤ
  optHighMin : Option ℤ
  optHighMax : Option ℤ
  sahniKLow : Option ℕ
  sahniKHigh : Option ℕ
  minOptValLow : Option ℤ
  maxOptValLow : Option ℤ
  minOptValHigh : Option ℤ
  maxOptValHigh : Option ℤ
  greedyCap : Option ℚ
  forgivenessCap : Option ℚ
  minFeasible : Option ℕ

/-- The low-budget capacity search of one attempt. -/
def findLow (cfg : BatchConfig) (items : List Item) : Option CapResult :=
  findCapacityInRangeB items cfg.budgetLowMin cfg.budgetLowMax cfg.optLowMin cfg.optLowMax
    cfg.sahniKLow cfg.minOptValLow cfg.maxOptValLow

/-- The high-budget capacity search of one attempt. -/
def findHigh (cfg : BatchConfig) (items : List Item) : Option CapResult :=
  findCapacityInRangeB items cfg.budgetHighMin cfg.budgetHighMax cfg.optHighMin cfg.optHighMax
    cfg.sahniKHigh cfg.minOptValHigh cfg.maxOptValHigh

/-- Both budget searches of one attempt; none when either budget fails —
the structural part of an attempt. -/
def mkCapPair (cfg : BatchConfig) (items : List Item) : Option (CapResult × CapResult) :=
  match findLow cfg items with
  | none => none
  | some lowR =>
    match findHigh cfg items with
    | none => none
    | some highR => some (lowR, highR)

/-- The near-miss record kept by the loop (seed, items, both capacity
results). -/
structure BatchFB where
  usedSeed : String
  items : List Item
  lowResult : CapResult
  highResult : CapResult
deriving DecidableEq

/-- The seed of attempt number a. -/
def seedOfAttempt (base : String) (attempt : ℕ) : String :=
  if attempt = 0 then base else base ++ "_" ++ toString attempt

/-- The near-miss record an attempt would store. -/
def attemptFB (cfg : BatchConfig) (items : List Item) (usedSeed : String) : Option BatchFB :=
  (mkCapPair cfg items).map fun p => ⟨usedSeed, items, p.1, p.2⟩

/-- An attempt passes the structural (count/value-range) constraints when
both budgets resolve. -/
def structuralPassB (cfg : BatchConfig) (items : List Item) : Bool :=
  (mkCapPair cfg items).isSome

/-- The per-budget greedy ratio of the batch loop. -/
def batchGreedyRatio (items : List Item) (cap : ℕ) (sol : Solution) : ℚ :=
  if 0 < sol.value then greedyValue items cap / sol.value else 0

/-- Rejection by the greedy-proximity constraint at either budget. -/
def greedyFailB (cfg : BatchConfig) (items : List Item) (lowR highR : CapResult) : Bool :=
  match cfg.greedyCap with
  | none => false
  | some thr =>
    decide (batchGreedyRatio items lowR.capacity lowR.sol ≥ thr) ||
    decide (batchGreedyRatio items highR.capacity highR.sol ≥ thr)

/-- Rejection by the N90-share or minimum-feasible constraints at either
budget (only evaluated when brute force is feasible, nItems ≤ 20). -/
def n90FailB (cfg : BatchConfig) (items : List Item) (lowR highR : CapResult) : Bool :=
  if cfg.nItems ≤ 20 then
    let bsL := countBundleStats items lowR.capacity lowR.sol.value 90
    let bsH := countBundleStats items highR.capacity highR.sol.value 90
    (match cfg.forgivenessCap with
     | none => false
     | some share =>
       decide ((if 0 < bsL.1 then (bsL.2 : ℚ) / (bsL.1 : ℚ) else 0) > share) ||
       decide ((if 0 < bsH.1 then (bsH.2 : ℚ) / (bsH.1 : ℚ) else 0) > share)) ||
    (match cfg.minFeasible with
     | none => false
     | some mf => decide (bsL.1 < mf) || decide (bsH.1 < mf))
  else false

/-- An attempt passes everything: structural plus greedy plus N90. -/
def fullPassB (cfg : BatchConfig) (items : List Item) : Bool :=
  match mkCapPair cfg items with
  | none => false
  | some p => !(greedyFailB cfg items p.1 p.2 || n90FailB cfg items p.1 p.2)

/-- The result record of generateSingleInstance. -/
structure BatchResult where
  seed : String
  items : List Item
  budgetLow : ℕ
  budgetHigh : ℕ
  optLow : Solution
  optHigh : Solution
  sahniLow : Option ℕ
  sahniHigh : Option ℕ
  greedyRatioLow : ℚ
  greedyRatioHigh : ℚ
  n90Low : Option ℕ
  n90High : Option ℕ
  feasibleLow : Option ℕ
  feasibleHigh : Option ℕ
  warning : Option String
deriving DecidableEq

/-- The Sahni-k of a budget: the value stored by the capacity search if a
Sahni filter ran, else computed now. -/
def batchSahni (items : List Item) (r : CapResult) : Option ℕ :=
  match r.sahniK with
  | some sv => sv
  | none => computeSahniK (items.map Item.toQ) r.capacity r.sol.value

/-- The success result of an attempt that passed every constraint. -/
def mkSuccess (cfg : BatchConfig) (usedSeed : String) (items : List Item)
    (lowR highR : CapResult) : BatchResult :=
  ⟨usedSeed, items, lowR.capacity, highR.capacity, lowR.sol, highR.sol,
   batchSahni items lowR, batchSahni items highR,
   batchGreedyRatio items lowR.capacity lowR.sol,
   batchGreedyRatio items highR.capacity highR.sol,
   if cfg.nItems ≤ 20 then some (countBundleStats items lowR.capacity lowR.sol.value 90).2 else none,
   if cfg.nItems ≤ 20 then some (countBundleStats items highR.capacity highR.sol.value 90).2 else none,
   if cfg.nItems ≤ 20 then some (countBundleStats items lowR.capacity lowR.sol.value 90).1 else none,
   if cfg.nItems ≤ 20 then some (countBundleStats items highR.capacity highR.sol.value 90).1 else none,
   none⟩

/-- The warning attached by the exhausted search. -/
def batchWarningBase : String := "Could not satisfy all constraints after 10,000 attempts."

/-- The near-miss variant of the warning. -/
def batchWarningNearMiss : String :=
  batchWarningBase ++ " (value cap respected, greedy/N90 relaxed)"

/-- The clamped midpoint capacity of the no-near-miss fallback. -/
def midCap (bmin bmax : ℤ) (sumW : ℕ) : ℕ :=
  (max 1 (min (jsRound (((bmin : ℚ) + (bmax : ℚ)) / 2)) ((sumW : ℤ) - 1))).toNat

/-- The fallback result: prefer the stored near-miss; otherwise regenerate
the base-seed items and clamp midpoint capacities into range; always carry
a warning. -/
def batchFallback (cfg : BatchConfig) (items0 : List Item) (instanceSeed : String)
    (fb : Option BatchFB) : BatchResult :=
  let fbItems := match fb with | some f => f.items | none => items0
  let fbSumW := weightSumN fbItems
  let fbCapLow := match fb with
    | some f => f.lowResult.capacity
    | none => midCap cfg.budgetLowMin cfg.budgetLowMax fbSumW
  let fbCapHigh := match fb with
    | some f => f.highResult.capacity
    | none => midCap cfg.budgetHighMin cfg.budgetHighMax fbSumW
  let fbSolLow := match fb with
    | some f => f.lowResult.sol
    | none => solveKnapsack fbItems fbCapLow
  let fbSolHigh := match fb with
    | some f => f.highResult.sol
    | none => solveKnapsack fbItems fbCapHigh
  let fbSeed := match fb with | some f => f.usedSeed | none => instanceSeed
  let fbSahniLow := match fb with
    | some f => batchSahni fbItems f.lowResult
    | none => computeSahniK (fbItems.map Item.toQ) fbCapLow fbSolLow.value
  let fbSahniHigh := match fb with
    | some f => batchSahni fbItems f.highResult
    | none => computeSahniK (fbItems.map Item.toQ) fbCapHigh fbSolHigh.value
  ⟨fbSeed, fbItems, fbCapLow, fbCapHigh, fbSolLow, fbSolHigh, fbSahniLow, fbSahniHigh,
   batchGreedyRatio fbItems fbCapLow fbSolLow,
   batchGreedyRatio fbItems fbCapHigh fbSolHigh,
   if cfg.nItems ≤ 20 then some (countBundleStats fbItems fbCapLow fbSolLow.value 90).2 else none,
   if cfg.nItems ≤ 20 then some (countBundleStats fbItems fbCapHigh fbSolHigh.value 90).2 else none,
   if cfg.nItems ≤ 20 then some (countBundleStats fbItems fbCapLow fbSolLow.value 90).1 else none,
   if cfg.nItems ≤ 20 then some (countBundleStats fbItems fbCapHigh fbSolHigh.value 90).1 else none,
   some (match fb with | some _ => batchWarningNearMiss | none => batchWarningBase)⟩

/-- The attempt loop with its near-miss accumulator, fuel counting the
remaining attempts. -/
def batchLoop (cfg : BatchConfig) (gen : ℕ → List Item) (instanceSeed : String) :
    ℕ → ℕ → Option BatchFB → BatchResult
  | 0, _, best => batchFallback cfg (gen 0) instanceSeed best
  | fuel + 1, attempt, best =>
    let usedSeed := seedOfAttempt instanceSeed attempt
    let items := gen attempt
    match mkCapPair cfg items with
    | none => batchLoop cfg gen instanceSeed fuel (attempt + 1) best
    | some p =>
      let best2 := match best with
        | none => some (⟨usedSeed, items, p.1, p.2⟩ : BatchFB)
        | some b => some b
      if greedyFailB cfg items p.1 p.2 || n90FailB cfg items p.1 p.2 then
        batchLoop cfg gen instanceSeed fuel (attempt + 1) best2
      else mkSuccess cfg usedSeed items p.1 p.2

/-- generateSingleInstance: 10000 attempts starting from attempt 0 with no
stored near-miss. -/
def generateSingleInstanceB (cfg : BatchConfig) (gen : ℕ → List Item)
    (instanceSeed : String) : BatchResult :=
  batchLoop cfg gen instanceSeed 10000 0 none

/-- Once a near-miss is stored it is never replaced, so a window of
attempts that all fail the full constraints ends in the fallback with that
stored record. -/
lemma batchLoop_some_fb (cfg : BatchConfig) (gen : ℕ → List Item) (seed : String)
    (fb : BatchFB) : ∀ fuel attempt,
    (∀ a, attempt ≤ a → a < attempt + fuel → fullPassB cfg (gen a) = false) →
    batchLoop cfg gen seed fuel attempt (some fb) = batchFallback cfg (gen 0) seed (some fb) := by
  intro fuel
  induction fuel with
  | zero => intro attempt _; rw [batchLoop]
  | succ fuel ih =>
    intro attempt h
    rw [batchLoop]
    cases hcp : mkCapPair cfg (gen attempt) with
    | none =>
      exact ih (attempt + 1) fun a h1 h2 => h a (by omega) (by omega)
    | some p =>
      have hfail := h attempt (le_refl _) (by omega)
      rw [fullPassB, hcp] at hfail
      simp only [Bool.not_eq_false'] at hfail
      dsimp only
      rw [if_pos hfail]
      exact ih (attempt + 1) fun a h1 h2 => h a (by omega) (by omega)

/-- A window without a single structural pass ends in the base-seed
fallback. -/
lemma batchLoop_none_nostructural (cfg : BatchConfig) (gen : ℕ → List Item) (seed : String) :
    ∀ fuel attempt,
    (∀ a, attempt ≤ a → a < attempt + fuel → structuralPassB cfg (gen a) = false) →
    batchLoop cfg gen seed fuel attempt none = batchFallback cfg (gen 0) seed none := by
  intro fuel
  induction fuel with
  | zero => intro attempt _; rw [batchLoop]
  | succ fuel ih =>
    intro attempt h
    rw [batchLoop]
    cases hcp : mkCapPair cfg (gen attempt) with
    | none =>
      exact ih (attempt + 1) fun a h1 h2 => h a (by omega) (by omega)
    | some p =>
      have := h attempt (le_refl _) (by omega)
      rw [structuralPassB, hcp] at this
      exact absurd this (by simp)

/-- With no stored near-miss, a window whose first structural pass is at
attempt a0 and whose attempts all fail the full constraints ends in the
fallback with the record of attempt a0. -/
lemma batchLoop_none_first (cfg : BatchConfig) (gen : ℕ → List Item) (seed : String) :
    ∀ fuel attempt a0,
    attempt ≤ a0 → a0 < attempt + fuel →
    (∀ a, attempt ≤ a → a < attempt + fuel → fullPassB cfg (gen a) = false) →
    structuralPassB cfg (gen a0) = true →
    (∀ b, attempt ≤ b → b < a0 → structuralPassB cfg (gen b) = false) →
    batchLoop cfg gen seed fuel attempt none =
      batchFallback cfg (gen 0) seed (attemptFB cfg (gen a0) (seedOfAttempt seed a0)) := by
  intro fuel
  induction fuel with
  | zero => intro attempt a0 h1 h2 _ _ _; omega
  | succ fuel ih =>
    intro attempt a0 h1 h2 hfull hstr hbefore
    rcases Nat.eq_or_lt_of_le h1 with rfl | hlt
    · rw [batchLoop]
      rw [structuralPassB, Option.isSome_iff_exists] at hstr
      obtain ⟨p, hp⟩ := hstr
      rw [hp]
      have hfail := hfull attempt (le_refl _) (by omega)
      rw [fullPassB, hp] at hfail
      simp only [Bool.not_eq_false'] at hfail
      dsimp only
      rw [if_pos hfail]
      have hfb : attemptFB cfg (gen attempt) (seedOfAttempt seed attempt) =
          some ⟨seedOfAttempt seed attempt, gen attempt, p.1, p.2⟩ := by
        rw [attemptFB, hp]
        rfl
      rw [hfb]
      exact batchLoop_some_fb cfg gen seed _ fuel (attempt + 1)
        fun a ha1 ha2 => hfull a (by omega) (by omega)
    · rw [batchLoop]
      cases hcp : mkCapPair cfg (gen attempt) with
      | none =>
        exact ih (attempt + 1) a0 (by omega) (by omega)
          (fun a ha1 ha2 => hfull a (by omega) (by omega)) hstr
          (fun b hb1 hb2 => hbefore b (by omega) hb2)
      | some p =>
        have := hbefore attempt (le_refl _) hlt
        rw [structuralPassB, hcp] at this
        exact absurd this (by simp)

/-- Every fallback result carries a warning. -/
lemma batchFallback_warning (cfg : BatchConfig) (items0 : List Item) (seed : String)
    (fb : Option BatchFB) : (batchFallback cfg items0 seed fb).warning.isSome = true := rfl

/-- The seed of a near-miss fallback is the seed the near-miss attempt
used. -/
lemma batchFallback_seed_some (cfg : BatchConfig) (items0 : List Item) (seed : String)
    (f : BatchFB) : (batchFallback cfg items0 seed (some f)).seed = f.usedSeed := rfl

/-- C5 (amended): when no attempt within the 10000-attempt budget passes
all constraints, the search returns a fallback carrying a warning; if no
attempt even passes the structural (capacity-scan count/value) constraints
it regenerates at the base seed with clamped midpoint capacities, and
otherwise it falls back to the record of the EARLIEST attempt that passed
the structural constraints (the code stores only the first near miss and
never replaces it), not the most recent one. -/
theorem generateSingleInstanceB_fallback (cfg : BatchConfig) (gen : ℕ → List Item)
    (instanceSeed : String)
    (hfail : ∀ a, a < 10000 → fullPassB cfg (gen a) = false) :
    ((∀ a, a < 10000 → structuralPassB cfg (gen a) = false) →
      generateSingleInstanceB cfg gen instanceSeed =
        batchFallback cfg (gen 0) instanceSeed none) ∧
    (∀ a0, a0 < 10000 → structuralPassB cfg (gen a0) = true →
      (∀ b, b < a0 → structuralPassB cfg (gen b) = false) →
      generateSingleInstanceB cfg gen instanceSeed =
        batchFallback cfg (gen 0) instanceSeed
          (attemptFB cfg (gen a0) (seedOfAttempt instanceSeed a0))) ∧
    (generateSingleInstanceB cfg gen instanceSeed).warning.isSome = true := by
  have hbranch1 : (∀ a, a < 10000 → structuralPassB cfg (gen a) = false) →
      generateSingleInstanceB cfg gen instanceSeed =
        batchFallback cfg (gen 0) instanceSeed none := by
    intro hno
    rw [generateSingleInstanceB]
    exact batchLoop_none_nostructural cfg gen instanceSeed 10000 0
      fun a _ h2 => hno a (by omega)
  have hbranch2 : ∀ a0, a0 < 10000 → structuralPassB cfg (gen a0) = true →
      (∀ b, b < a0 → structuralPassB cfg (gen b) = false) →
      generateSingleInstanceB cfg gen instanceSeed =
        batchFallback cfg (gen 0) instanceSeed
          (attemptFB cfg (gen a0) (seedOfAttempt instanceSeed a0)) := by
    intro a0 ha0 hstr hbefore
    rw [generateSingleInstanceB]
    exact batchLoop_none_first cfg gen instanceSeed 10000 0 a0 (by omega) (by omega)
      (fun a _ h2 => hfail a (by omega)) hstr (fun b _ hb => hbefore b hb)
  refine ⟨hbranch1, hbranch2, ?_⟩
  by_cases hex : ∃ a, a < 10000 ∧ structuralPassB cfg (gen a) = true
  · obtain ⟨a, ha, hstra⟩ := hex
    have hfind : ∃ a0, structuralPassB cfg (gen a0) = true := ⟨a, hstra⟩
    have hstr0 : structuralPassB cfg (gen (Nat.find hfind)) = true := Nat.find_spec hfind
    have hlt0 : Nat.find hfind < 10000 := lt_of_le_of_lt (Nat.find_le hstra) ha
    have hbef : ∀ b, b < Nat.find hfind → structuralPassB cfg (gen b) = false := by
      intro b hb
      cases h2 : structuralPassB cfg (gen b) with
      | false => rfl
      | true => exact absurd h2 (Nat.find_min hfind hb)
    rw [hbranch2 (Nat.find hfind) hlt0 hstr0 hbef]
    exact batchFallback_warning cfg (gen 0) instanceSeed _
  · have hno : ∀ a, a < 10000 → structuralPassB cfg (gen a) = false := by
      intro a ha
      cases h2 : structuralPassB cfg (gen a) with
      | false => rfl
      | true => exact absurd ⟨a, ha, h2⟩ hex
    rw [hbranch1 hno]
    exact batchFallback_warning cfg (gen 0) instanceSeed none

/-- One item of weight 2 and value 1, for the C5 fixture. -/
def c5Items : List Item := [⟨1, 2, 1⟩]

/-- The C5 fixture configuration: one item, both budget ranges [1,1], no
count/value/Sahni filters, greedy ceiling 0 (every attempt fails it), no
forgiveness or feasibility constraints. -/
def c5Config : BatchConfig :=
  ⟨1, 1, 1, 1, 1, none, none, none, none, none, none, none, none, none, none,
    some 0, none, none⟩

/-- The fixture optimum is 0: the single item does not fit capacity 1. -/
lemma c5_sol_value : (solveKnapsack c5Items 1).value = 0 := by
  norm_num [solveKnapsack, dp, c5Items]

/-- The fixture capacity scan resolves both budgets at capacity 1. -/
lemma c5_capPair : mkCapPair c5Config c5Items =
    some (⟨1, solveKnapsack c5Items 1, none⟩, ⟨1, solveKnapsack c5Items 1, none⟩) := by
  have h1 : findCapacityInRangeB c5Items 1 1 none none none none none =
      some ⟨1, solveKnapsack c5Items 1, none⟩ := by
    rw [findCapacityInRangeB]
    norm_num [weightSumN, c5Items, capCandidateOk]
  rw [mkCapPair, findLow, findHigh]
  simp only [c5Config]
  rw [h1]

/-- The fixture passes the structural constraints on every attempt. -/
lemma c5_structural : structuralPassB c5Config c5Items = true := by
  rw [structuralPassB, c5_capPair]
  rfl

/-- The fixture fails the greedy ceiling (ratio 0 is not strictly below
the ceiling 0) on every attempt, so no attempt fully passes. -/
lemma c5_fullfail : fullPassB c5Config c5Items = false := by
  rw [fullPassB, c5_capPair]
  have hg : greedyFailB c5Config c5Items ⟨1, solveKnapsack c5Items 1, none⟩
      ⟨1, solveKnapsack c5Items 1, none⟩ = true := by
    rw [greedyFailB]
    simp only [c5Config]
    have hr : batchGreedyRatio c5Items 1 (solveKnapsack c5Items 1) = 0 := by
      rw [batchGreedyRatio, c5_sol_value]
      norm_num
    dsimp only
    rw [hr]
    norm_num
  dsimp only
  rw [hg]
  rfl

/-- Counterexample to C5 as stated: with the fixture every attempt passes
the structural constraints and fails the greedy constraint, so the
near-miss fallback fires; the result carries the seed of attempt 0 (the
first structural pass), not the seed of the most recent structural pass
9999 — had the code preferred the most recent near miss, the result seed
would be the attempt-9999 seed, which differs. -/
theorem generateSingleInstanceB_first_not_recent :
    (generateSingleInstanceB c5Config (fun _ => c5Items) "s").seed = "s" ∧
    structuralPassB c5Config c5Items = true ∧
    (batchFallback c5Config c5Items "s"
      (attemptFB c5Config c5Items (seedOfAttempt "s" 9999))).seed = seedOfAttempt "s" 9999 ∧
    seedOfAttempt "s" 9999 ≠ "s" := by
  have hful : ∀ a, a < 10000 → fullPassB c5Config ((fun _ => c5Items) a) = false :=
    fun a _ => c5_fullfail
  refine ⟨?_, c5_structural, ?_, ?_⟩
  · have hrun := batchLoop_none_first c5Config (fun _ => c5Items) "s" 10000 0 0 (le_refl 0)
      (by omega) (fun a _ h2 => hful a (by omega)) c5_structural
      (fun b _ hb => absurd hb (Nat.not_lt_zero b))
    rw [generateSingleInstanceB, hrun, attemptFB, c5_capPair]
    rfl
  · rw [attemptFB, c5_capPair]
    rfl
  · rw [seedOfAttempt]
    norm_num
    decide

/-- Witness for C5: the amended fallback theorem applied to the fixture,
the all-attempts-fail hypothesis discharged by the fixture computation. -/
theorem generateSingleInstanceB_fallback_witness :
    (∀ a, a < 10000 → fullPassB c5Config ((fun _ => c5Items) a) = false) ∧
    (((∀ a, a < 10000 → structuralPassB c5Config ((fun _ => c5Items) a) = false) →
      generateSingleInstanceB c5Config (fun _ => c5Items) "s" =
        batchFallback c5Config ((fun _ => c5Items) 0) "s" none) ∧
    (∀ a0, a0 < 10000 → structuralPassB c5Config ((fun _ => c5Items) a0) = true →
      (∀ b, b < a0 → structuralPassB c5Config ((fun _ => c5Items) b) = false) →
      generateSingleInstanceB c5Config (fun _ => c5Items) "s" =
        batchFallback c5Config ((fun _ => c5Items) 0) "s"
          (attemptFB c5Config ((fun _ => c5Items) a0) (seedOfAttempt "s" a0))) ∧
    (generateSingleInstanceB c5Config (fun _ => c5Items) "s").warning.isSome = true) := by
  have h : ∀ a, a < 10000 → fullPassB c5Config ((fun _ => c5Items) a) = false :=
    fun a _ => c5_fullfail
  exact ⟨h, generateSingleInstanceB_fallback c5Config (fun _ => c5Items) "s" h⟩

end KnapsackGen
